import Mathlib

/-!
Shallow embedding of the transient accumulation block of `mitsuba3-transient`
(`src/mitransient/transientBlock.py`), together with theorems about its
configuration, accumulation (`put_`/`put`) and normalization (`develop`) code.

Modelling conventions:
* drjit/numpy floating point values are modelled as rationals (`ℚ`).
* drjit `UInt32` arithmetic is modelled as `ℕ` with explicit `% 2^32`
  (the `u32` function below).
* The drjit `Float → UInt32` cast (`ArrayXu(...)`, `UInt32(...)` on floats)
  is modelled after the CUDA `cvt.rzi.u32.f32` semantics used by the
  backend: truncation toward zero, saturating to `0` for negative inputs
  and to `2^32 - 1` for oversized inputs (`fToU32`).
* `numpy` integer arrays (`m_size`, `m_border_size`, ...) hold ordinary
  Python/numpy integers and are modelled as `List ℕ`; the wrap of
  `np.uint32` casts is made explicit where the source performs one
  (`configure_filter`'s border-offset subtraction).
* The drjit buffer `TensorXf` is a shape plus a flat row-major array.
* `dr.scatter_reduce(Add, ...)` with a mask is an addition into the flat
  array, skipped when the mask is false.
* The mitsuba-core helpers used by `TransientBlock.put`
  (`unpolarized_spectrum`, `spectrum_to_srgb`) and by `develop`
  (`linear_to_srgb`, only used when `gamma=True`) live outside this
  repository; `put` is modelled from the already-converted rgb triple on,
  and `develop` is modelled for `gamma=False`.
-/

namespace MiTransient

/-- `2^32`, the modulus of drjit `UInt32` arithmetic. -/
def U32SIZE : ℕ := 4294967296

/-- drjit `UInt32` wrap-around. -/
def u32 (x : ℕ) : ℕ := x % U32SIZE

/-- `mitsuba.math.RayEpsilon` for single precision:
`machine_epsilon * 1500 = 2^-24 * 1500`. -/
def RayEpsilon : ℚ := 1500 / 16777216

/-- Model of the drjit `Float → UInt32` cast: truncate toward zero,
saturating at `0` below and `2^32 - 1` above. -/
def fToU32 (x : ℚ) : ℕ := if x < 0 then 0 else min ⌊x⌋.toNat (U32SIZE - 1)

/-- Model of `np.ceil(...).astype(np.uint32)` on the (nonnegative)
quantities the source applies it to. -/
def natCeil (x : ℚ) : ℕ := ⌈x⌉.toNat

/-- `dr.ceil` on floats (result is an integer-valued float). -/
def ceilQ (x : ℚ) : ℚ := (⌈x⌉ : ℤ)

/-- `dr.floor` on floats (result is an integer-valued float). -/
def floorQ (x : ℚ) : ℚ := (⌊x⌋ : ℤ)

/-- A reconstruction filter, as used by `TransientBlock`: the block only
queries `radius()`, `border_size()` and `eval(x)`. -/
structure RFilter where
  radius : ℚ
  border_size : ℕ
  eval : ℚ → ℚ

/-- A drjit `TensorXf`: a shape and a flat row-major array. -/
structure Tensor where
  shape : List ℕ
  array : List ℚ
deriving DecidableEq

/-- The state of a `TransientBlock` (the `m_warn_*` flags are never read
by the modelled code and are omitted). -/
structure Block where
  m_offset : List ℕ
  m_size : List ℕ
  m_channel_count : ℕ
  m_normalize : Bool
  m_filter : Option (List RFilter)
  m_border_size : List ℕ
  m_original_border_size : List ℕ
  m_border_offset : List ℕ
  filter_radius : List ℚ
  m_weights : List ℚ
  m_data : Tensor

/-- The filter argument of `__init__`/`configure_filter`: Python `None`,
a single filter object, or a list of filters. -/
inductive FilterArg where
  | noFilter : FilterArg
  | single : RFilter → FilterArg
  | list : List RFilter → FilterArg

/-- Tap count per axis: `np.ceil((radius - 2.0 * RayEpsilon) * 2.0)
.astype(np.uint32)` (lines 78 and 121 of the source, same formula). -/
def filterTaps (radius : ℚ) : ℕ := natCeil ((radius - 2 * RayEpsilon) * 2)

/-- `TransientBlock.set_size`: store the new size and reset `m_offset`
to zeros, unless the size is unchanged. -/
def set_size (b : Block) (size : List ℕ) : Block :=
  if b.m_size = size then b
  else { b with m_size := size, m_offset := List.replicate size.length 0 }

/-- The body of `TransientBlock.configure_filter` after the broadcast
step (lines 57-81): raises when the filter list's length differs from the
dimension count.  On the first configuration the border is recorded as
`m_original_border_size`; on later configurations with a different
border, `m_border_offset` becomes the `np.uint32` difference
`original - new`. -/
def configureWithList (b : Block) (fs : List RFilter) (border : Bool) :
    Except String Block :=
  if b.m_size.length ≠ fs.length then
    .error "Filter list should be equal to dimension or use only one filter for all dimensions"
  else
    let border_size : List ℕ :=
      if border then fs.map (fun f => f.border_size)
      else List.replicate b.m_size.length 0
    let b' : Block :=
      if b.m_filter.isNone then
        { b with m_border_size := border_size,
                 m_original_border_size := border_size,
                 m_border_offset := List.replicate b.m_size.length 0 }
      else
        { b with
          m_border_offset :=
            if border_size ≠ b.m_original_border_size then
              List.zipWith (fun o n => (U32SIZE + o - n) % U32SIZE)
                b.m_original_border_size border_size
            else b.m_border_offset,
          m_border_size := border_size }
    let filter_radius := fs.map (fun f => f.radius)
    let filter_size := filter_radius.map filterTaps
    .ok { b' with m_filter := some fs,
                  filter_radius := filter_radius,
                  m_weights := List.replicate filter_size.sum 0 }

/-- `TransientBlock.configure_filter`, dispatching on the Python argument:
`None` raises; a single non-list filter is broadcast to every axis
(line 54-55) before the shared body runs. -/
def configure_filter (b : Block) (filter : FilterArg) (border : Bool) :
    Except String Block :=
  match filter with
  | .noFilter => .error "You need to define a reconstruction filter"
  | .single f => configureWithList b (List.replicate b.m_size.length f) border
  | .list l => configureWithList b l border

/-- `TransientBlock.clear`: reallocate `m_data` as a zero tensor of shape
`m_size + 2 * border` per axis, `m_channel_count` channels, where the
border is `m_border_size` when `force` and `m_original_border_size`
otherwise. -/
def clear (b : Block) (force : Bool) : Block :=
  let bs := if force then b.m_border_size else b.m_original_border_size
  let sizeData := (List.range b.m_size.length).map
    (fun j => b.m_size.getD j 0 + 2 * bs.getD j 0)
  let width := b.m_channel_count * sizeData.prod
  { b with m_data := ⟨sizeData ++ [b.m_channel_count], List.replicate width 0⟩ }

/-- `TransientBlock.__init__`: set the size, configure the filter, clear. -/
def initBlock (size : List ℕ) (channel_count : ℕ) (filter : FilterArg)
    (border : Bool) (normalize : Bool) : Except String Block :=
  let b : Block :=
    { m_offset := [], m_size := [], m_channel_count := channel_count,
      m_normalize := normalize, m_filter := none, m_border_size := [],
      m_original_border_size := [], m_border_offset := [],
      filter_radius := [], m_weights := [], m_data := ⟨[], []⟩ }
  let b := set_size b size
  match configure_filter b filter border with
  | .error e => .error e
  | .ok b => .ok (clear b false)

/-- The padded extent used inside `put_` (line 107):
`ArrayXu(m_size) + 2 * ArrayXu(m_original_border_size)`, per axis, in
`UInt32` arithmetic. -/
def sizeArr (b : Block) : List ℕ :=
  (List.range b.m_size.length).map
    (fun j => u32 (b.m_size.getD j 0 + 2 * b.m_original_border_size.getD j 0))

/-- Buffer-local floating coordinates (line 109):
`pos_ - (m_offset - (m_border_size + m_border_offset) + 0.5)`. -/
def localPos (b : Block) (pos' : List ℚ) : List ℚ :=
  (List.range pos'.length).map
    (fun j => pos'.getD j 0 -
      ((b.m_offset.getD j 0 : ℚ) -
        ((b.m_border_size.getD j 0 : ℚ) + (b.m_border_offset.getD j 0 : ℚ)) + 1/2))

/-- One masked `dr.scatter_reduce(ReduceOp.Add, ...)` into the flat
buffer: index, addend, and enabled mask. -/
structure ScatterOp where
  index : ℕ
  value : ℚ
  enabled : Bool
deriving DecidableEq

/-- Apply one scatter-add to a flat buffer. A disabled op is a no-op; an
out-of-range index leaves the list unchanged (`List.set` out of range). -/
def scatterAdd (a : List ℚ) (op : ScatterOp) : List ℚ :=
  if op.enabled then a.set op.index (a.getD op.index 0 + op.value) else a

/-- The tap enumeration of the general-path `while` loop: a mixed-radix
counter over the per-axis tap counts, axis 0 fastest.  The loop body runs
at least once per axis value (do-while), hence `max n0 1`. -/
def tapIndices (n : List ℕ) : List (List ℕ) :=
  match n with
  | [] => [[]]
  | n0 :: rest =>
    (tapIndices rest).flatMap (fun t => (List.range (max n0 1)).map (fun i => i :: t))

/-- `dr.prod` over a `UInt32` array: sequential product with wrap-around. -/
def u32prod (l : List ℕ) : ℕ := l.foldl (fun a s => u32 (a * u32 s)) 1

/-- The flat (cell) offset of one tap (lines 160-165): accumulated from the
last axis to the first in `UInt32` arithmetic,
`offset += UInt32((idxs[j] + lo[j]) * UInt32(dr.prod(size[j+1:])))`. -/
def tapOffset : List ℕ → List ℕ → List ℕ → ℕ
  | _ :: ss, l :: ls, t :: ts =>
    u32 (tapOffset ss ls ts + u32 (u32 (t + l) * u32prod ss))
  | _, _, _ => 0

/-- Row-major flat index of a multi-index (mathematical, no wrap). -/
def flatten : List ℕ → List ℕ → ℕ
  | _ :: ss, i :: is => i * ss.prod + flatten ss is
  | _, _ => 0

/-- All multi-indices of a shape, row-major (first axis slowest). -/
def allIndices : List ℕ → List (List ℕ)
  | [] => [[]]
  | s :: ss => (List.range s).flatMap (fun i => (allIndices ss).map (fun is => i :: is))

/-- Write the per-axis filter weights of one axis into the scratch table
(lines 126-132): `m_weights[base_index + i] = filter[j].eval(UInt32(base[j]) + i)`
for `i < n[j]`. -/
def writeAxisWeights (f : RFilter) (nj : ℕ) (basej : ℚ) (base_index : ℕ)
    (w : List ℚ) : List ℚ :=
  (List.range nj).foldl
    (fun w i => w.set (base_index + i) (f.eval ((u32 (fToU32 basej + i) : ℕ) : ℚ))) w

/-- The full weight-table computation of the general path: one
`writeAxisWeights` per axis, with `base_index` advancing by `n[j]`. -/
def computeWeights : List RFilter → List ℕ → List ℚ → ℕ → List ℚ → List ℚ
  | f :: fs, nj :: ns, bj :: bs, base_index, w =>
    computeWeights fs ns bs (base_index + nj) (writeAxisWeights f nj bj base_index w)
  | _, _, _, _, w => w

/-- Product of the per-axis weight sums (lines 137-142):
`factor = ∏_j hsum(m_weights[base_j : base_j + n_j])`. -/
def weightSumsProd : List ℕ → ℕ → List ℚ → ℚ
  | [], _, _ => 1
  | nj :: rest, base, w =>
    (((w.drop base).take nj).sum) * weightSumsProd rest (base + nj) w

/-- The `m_normalize` pass of `put_` (lines 136-147): multiply the first
`n[0]` weights by `dr.rcp` of the product of all per-axis weight sums.
(`dr.rcp` is modelled by `Inv ℚ`, whose value at `0` is `0`.) -/
def normalizeWeights (n : List ℕ) (w : List ℚ) : List ℚ :=
  let factor := (weightSumsProd n 0 w)⁻¹
  (List.range (n.headD 0)).foldl (fun w i => w.set i (w.getD i 0 * factor)) w

/-- Whether `put_` takes the general path (line 113):
`np.any(filter_radius > 0.5 + RayEpsilon)`. -/
def anyWide (b : Block) : Bool :=
  b.filter_radius.any (fun r => decide (r > 1/2 + RayEpsilon))

/-- General-path per-axis lower bounds, before the `UInt32` cast
(line 115): `dr.max(dr.ceil(pos - filter_radius), 0)`. -/
def loFloat (b : Block) (pos : List ℚ) (j : ℕ) : ℚ :=
  max (ceilQ (pos.getD j 0 - b.filter_radius.getD j 0)) 0

/-- General-path per-axis upper bounds, before the `UInt32` cast
(line 116): `dr.min(dr.floor(pos + filter_radius), size - (1 + border_offset))`. -/
def hiFloat (b : Block) (pos : List ℚ) (j : ℕ) : ℚ :=
  min (floorQ (pos.getD j 0 + b.filter_radius.getD j 0))
    (((sizeArr b).getD j 0 : ℚ) - (1 + (b.m_border_offset.getD j 0 : ℚ)))

/-- The per-axis tap counts recomputed inside `put_` (line 121). -/
def tapCounts (b : Block) : List ℕ := b.filter_radius.map filterTaps

/-- The weight table after the writes (and optional normalization) of one
general-path `put_` call.  `base = lo - pos` (line 124) where `lo` is the
already-`UInt32`-cast lower bound. -/
def putWeights (b : Block) (pos' : List ℚ) : List ℚ :=
  let pos := localPos b pos'
  let fs := b.m_filter.getD []
  let n := tapCounts b
  let base := (List.range fs.length).map
    (fun j => ((fToU32 (loFloat b pos j) : ℕ) : ℚ) - pos.getD j 0)
  let w := computeWeights fs n base 0 b.m_weights
  if b.m_normalize then normalizeWeights n w else w

/-- The list of scatter-adds performed by one general-path `put_` call
(lines 150-181): for every tap tuple, the product of the per-axis weights,
the `UInt32` flat offset, and the per-axis boundary mask
`(idxs[j] + lo[j]) <= hi[j]`; then one add per channel. -/
def putGeneralOps (b : Block) (pos' : List ℚ) (value : List ℚ)
    (active : Bool) : List ScatterOp :=
  let pos := localPos b pos'
  let size := sizeArr b
  let fs := b.m_filter.getD []
  let L := fs.length
  let n := tapCounts b
  let lo := (List.range L).map (fun j => fToU32 (loFloat b pos j))
  let hi := (List.range L).map (fun j => fToU32 (hiFloat b pos j))
  let w := putWeights b pos'
  (tapIndices n).flatMap (fun t =>
    let weight : ℚ := (List.range L).foldl
      (fun acc j => acc * w.getD ((n.take j).sum + t.getD j 0) 0) 1
    let offset := tapOffset size lo t
    let enabled := active &&
      (List.range L).all
        (fun j => decide (u32 (t.getD j 0 + lo.getD j 0) ≤ hi.getD j 0))
    (List.range b.m_channel_count).map (fun k =>
      ⟨u32 (u32 (offset * u32 b.m_channel_count) + u32 k),
       value.getD k 0 * weight, enabled⟩))

/-- Fast-path per-axis cell coordinate, before the `UInt32` cast
(line 183): `dr.ceil(pos - 0.5)`. -/
def fastLoFloat (pos : List ℚ) (j : ℕ) : ℚ :=
  ceilQ (pos.getD j 0 - 1/2)

/-- The list of scatter-adds performed by one fast-path `put_` call
(lines 182-193): the flat offset of the rounded cell, the in-bounds test
`(lo >= 0) & (lo < size)` on the float coordinates, one add per channel. -/
def putFastOps (b : Block) (pos' : List ℚ) (value : List ℚ)
    (active : Bool) : List ScatterOp :=
  let pos := localPos b pos'
  let size := sizeArr b
  let L := b.m_size.length
  let lo := (List.range L).map (fun j => fToU32 (fastLoFloat pos j))
  let offset := tapOffset size lo (List.replicate L 0)
  let enabled := active &&
    (List.range L).all
      (fun j => decide (0 ≤ fastLoFloat pos j ∧
        fastLoFloat pos j < (size.getD j 0 : ℚ)))
  (List.range b.m_channel_count).map (fun k =>
    ⟨u32 (u32 (offset * u32 b.m_channel_count) + u32 k),
     value.getD k 0, enabled⟩)

/-- All scatter-adds of one `put_` call. -/
def putOps (b : Block) (pos' : List ℚ) (value : List ℚ)
    (active : Bool) : List ScatterOp :=
  if anyWide b then putGeneralOps b pos' value active
  else putFastOps b pos' value active

/-- `TransientBlock.put_`: mutate `m_data` by the scatter-adds (and, on
the general path, `m_weights` by the weight-table writes).  The Python
method also returns `active`, which is just the echoed argument. -/
def put_ (b : Block) (pos' : List ℚ) (value : List ℚ) (active : Bool) : Block :=
  let data := (putOps b pos' value active).foldl scatterAdd b.m_data.array
  if anyWide b then
    { b with m_weights := putWeights b pos',
             m_data := ⟨b.m_data.shape, data⟩ }
  else
    { b with m_data := ⟨b.m_data.shape, data⟩ }

/-- `TransientBlock.put` (lines 86-99), from the converted rgb triple on
(the spectrum-to-rgb conversion is mitsuba-core code outside this
repository): `values = [rgb[0], rgb[1], rgb[2], alpha, 1.0]`. -/
def put (b : Block) (pos' : List ℚ) (rgb : ℚ × ℚ × ℚ) (alpha : ℚ)
    (active : Bool) : Block :=
  put_ b pos' [rgb.1, rgb.2.1, rgb.2.2, alpha, 1] active

/-- Numpy-style crop of a tensor: remove `bd[j]` cells from both ends of
axis `j` (`np.s_[bi:-bi]`, or the full axis when `bi == 0`); trailing axes
not covered by `bd` are kept whole. -/
def crop (t : Tensor) (bd : List ℕ) : Tensor :=
  let bd' := bd ++ List.replicate (t.shape.length - bd.length) 0
  let shape' := List.zipWith (fun s b2 => s - 2 * b2) t.shape bd'
  ⟨shape',
   (allIndices shape').map
     (fun p => t.array.getD (flatten t.shape (List.zipWith (· + ·) p bd')) 0)⟩

/-- `TransientBlock.develop` (lines 196-222), modelled for `gamma=False`
(`linear_to_srgb` is mitsuba-core code outside this repository).  The
weight channel is read at hard-coded channel index `4` and the output
keeps `channel_count - 2` channels; the divide is masked by
`weight > 0.0` (`(values / weight) & (weight > 0.0)`), and the result is
cropped by `m_original_border_size` on every axis. -/
def develop (b : Block) (raw : Bool) : Tensor :=
  let res := b.m_data
  if raw then res
  else
    let pixel_count := res.shape.dropLast.prod
    let ch := res.shape.getLastD 0
    let target_ch := ch - 2
    let values := (List.range (pixel_count * target_ch)).map (fun i =>
      let i_channel := i % target_ch
      let weight_idx := (i / target_ch) * ch + 4
      let values_idx := (i / target_ch) * ch + i_channel
      let w := res.array.getD weight_idx 0
      let v := res.array.getD values_idx 0
      if w > 0 then v / w else 0)
    crop ⟨res.shape.dropLast ++ [target_ch], values⟩ b.m_original_border_size

/-! ### Concrete filters and blocks used in counterexamples and witnesses -/

/-- The mitsuba `box` reconstruction filter: radius `0.5`, border `0`. -/
def boxF : RFilter := ⟨1/2, 0, fun _ => 1⟩

/-- A wide filter of radius `2.5` (border `ceil(2.5 - 0.5) = 2`),
with a nowhere-zero kernel. -/
def f25 : RFilter := ⟨5/2, 2, fun x => x + 1⟩

/-- A filter of radius `1.5` (border `ceil(1.5 - 0.5) = 1`),
with a nowhere-zero kernel. -/
def f15 : RFilter := ⟨3/2, 1, fun x => x + 1⟩

/-- A trivial block value, used as the fallback of `blockOf`. -/
def dummyBlock : Block :=
  { m_offset := [], m_size := [], m_channel_count := 0,
    m_normalize := false, m_filter := none, m_border_size := [],
    m_original_border_size := [], m_border_offset := [],
    filter_radius := [], m_weights := [], m_data := ⟨[], []⟩ }

/-- Extract the block of a successful configuration. -/
def blockOf (e : Except String Block) : Block :=
  match e with
  | .ok b => b
  | .error _ => dummyBlock

/-- Whether a configuration step succeeded. -/
def isOk (e : Except String Block) : Bool :=
  match e with
  | .ok _ => true
  | .error _ => false

/-- A 1-axis block of extent 4 with 5 channels and a box filter on the
axis; no border, fast accumulation path. -/
def B1 : Block := blockOf (initBlock [4] 5 (.single boxF) true false)

/-- A 1-axis block of extent 4 with 5 channels, first configured with the
radius-2.5 filter (border 2, so the padded extent is 8), then reconfigured
with the radius-1.5 filter (border 1), leaving `m_border_offset = [1]`. -/
def B3 : Block := blockOf ((initBlock [4] 5 (.single f25) true false).bind
  (fun b => configure_filter b (.single f15) true))

/-- One vectorized sample: raw position, per-channel values, active mask. -/
def putStep (b : Block) (s : List ℚ × List ℚ × Bool) : Block :=
  put_ b s.1 s.2.1 s.2.2

/-- Process a batch of samples by successive `put_` calls. -/
def putBatch (b : Block) (l : List (List ℚ × List ℚ × Bool)) : Block :=
  l.foldl putStep b

/-- Process several batches in sequence. -/
def putBatches (b : Block) (ll : List (List (List ℚ × List ℚ × Bool))) : Block :=
  ll.foldl putBatch b

/-- Sum of channel `k` over the first `cells` cells of a flat buffer with
`ch` channels per cell. -/
def channelSum (a : List ℚ) (ch k cells : ℕ) : ℚ :=
  ∑ c ∈ Finset.range cells, a.getD (c * ch + k) 0

/-- Two blocks that agree on every configuration field and on the length
of the weight scratch table (they may differ in the scratch table's
contents, which a general-path `put_` fully rewrites before use, and in
the data buffer, which is tracked separately). -/
def SameCfg (b1 b2 : Block) : Prop :=
  b1.m_offset = b2.m_offset ∧ b1.m_size = b2.m_size ∧
  b1.m_channel_count = b2.m_channel_count ∧ b1.m_normalize = b2.m_normalize ∧
  b1.m_filter = b2.m_filter ∧ b1.m_border_size = b2.m_border_size ∧
  b1.m_original_border_size = b2.m_original_border_size ∧
  b1.m_border_offset = b2.m_border_offset ∧ b1.filter_radius = b2.filter_radius ∧
  b1.m_weights.length = b2.m_weights.length

/-- The scratch-table invariant established by `configure_filter`: one
filter per radius entry, and the weight table has exactly one slot per
tap (`sum` of the per-axis tap counts). -/
def WeightsInv (b : Block) : Prop :=
  (b.m_filter.getD []).length = b.filter_radius.length ∧
  b.m_weights.length = (tapCounts b).sum

/-! ### Basic list lemmas -/

theorem getD_set_eq {α : Type} (l : List α) (i : ℕ) (x d : α) (h : i < l.length) :
    (l.set i x).getD i d = x := by
  simp [List.getD_eq_getElem?_getD, List.getElem?_set_eq_of_lt x h]

theorem getD_set_ne {α : Type} (l : List α) {i j : ℕ} (x d : α) (h : i ≠ j) :
    (l.set i x).getD j d = l.getD j d := by
  simp [List.getD_eq_getElem?_getD, List.getElem?_set_ne h]

/-! ### Scatter-add lemmas -/

theorem length_scatterAdd (a : List ℚ) (op : ScatterOp) :
    (scatterAdd a op).length = a.length := by
  unfold scatterAdd; split <;> simp

theorem length_foldl_scatterAdd (ops : List ScatterOp) (a : List ℚ) :
    (ops.foldl scatterAdd a).length = a.length := by
  induction ops generalizing a with
  | nil => rfl
  | cons op rest ih => simp [List.foldl_cons, ih, length_scatterAdd]

theorem getD_scatterAdd (a : List ℚ) (op : ScatterOp) (i : ℕ) :
    (scatterAdd a op).getD i 0 =
      a.getD i 0 +
        (if op.enabled = true ∧ op.index = i ∧ i < a.length then op.value else 0) := by
  unfold scatterAdd
  cases he : op.enabled with
  | false => simp [he]
  | true =>
    simp only [if_true]
    by_cases hidx : op.index = i
    · subst hidx
      by_cases hlen : op.index < a.length
      · rw [getD_set_eq _ _ _ _ hlen]
        simp [hlen]
      · rw [List.set_eq_of_length_le (Nat.le_of_not_lt hlen)]
        simp [hlen]
    · rw [getD_set_ne _ _ _ hidx]
      simp [hidx]

theorem scatterAdd_comm (a : List ℚ) (op1 op2 : ScatterOp) :
    scatterAdd (scatterAdd a op1) op2 = scatterAdd (scatterAdd a op2) op1 := by
  unfold scatterAdd
  cases h1 : op1.enabled with
  | false => simp
  | true =>
    cases h2 : op2.enabled with
    | false => simp
    | true =>
      simp only [if_true]
      by_cases hij : op1.index = op2.index
      · rw [← hij]
        by_cases hlen : op1.index < a.length
        · rw [getD_set_eq _ _ _ _ hlen, getD_set_eq _ _ _ _ hlen,
            List.set_set, List.set_set]
          ring_nf
        · have h3 : ∀ (x : ℚ), a.set op1.index x = a :=
            fun x => List.set_eq_of_length_le (Nat.le_of_not_lt hlen)
          simp [h3]
      · rw [getD_set_ne _ _ _ (fun h => hij h.symm), getD_set_ne _ _ _ hij,
          List.set_comm _ _ _ (fun h => hij h)]

theorem foldl_scatterAdd_swap (a : List ℚ) (op : ScatterOp) (ops : List ScatterOp) :
    ops.foldl scatterAdd (scatterAdd a op) = scatterAdd (ops.foldl scatterAdd a) op := by
  induction ops generalizing a with
  | nil => rfl
  | cons o rest ih => simp only [List.foldl_cons, scatterAdd_comm a op o, ih]

theorem foldl_scatterAdd_comm (a : List ℚ) (ops1 ops2 : List ScatterOp) :
    ops2.foldl scatterAdd (ops1.foldl scatterAdd a) =
      ops1.foldl scatterAdd (ops2.foldl scatterAdd a) := by
  induction ops1 generalizing a with
  | nil => rfl
  | cons o rest ih =>
    simp only [List.foldl_cons]
    rw [ih (scatterAdd a o), foldl_scatterAdd_swap]

/-! ### Flatten / allIndices / crop lemmas -/

theorem allIndices_length (s : List ℕ) : (allIndices s).length = s.prod := by
  induction s with
  | nil => rfl
  | cons s0 ss ih =>
    simp only [allIndices, List.length_flatMap, Function.comp_def, List.length_map, ih]
    rw [List.map_const', List.sum_replicate, smul_eq_mul, List.prod_cons,
      List.length_range]

theorem flatten_lt {p s : List ℕ} (h : List.Forall₂ (· < ·) p s) :
    flatten s p < s.prod := by
  induction h with
  | nil => simp [flatten]
  | cons h0 h1 ih =>
    rename_i i s0 is ss
    simp only [flatten, List.prod_cons]
    calc i * ss.prod + flatten ss is < i * ss.prod + ss.prod :=
          Nat.add_lt_add_left ih _
      _ = (i + 1) * ss.prod := by ring
      _ ≤ s0 * ss.prod := Nat.mul_le_mul_right _ h0

theorem flatMap_uniform_getElem? {α : Type} (xs : List ℕ) (f : ℕ → List α) (c : ℕ)
    (hc : ∀ b, (f b).length = c) :
    ∀ (i r : ℕ), i < xs.length → r < c →
      (xs.flatMap f)[i * c + r]? = (f (xs.getD i 0))[r]? := by
  induction xs with
  | nil =>
    intro i r hi _
    exact absurd hi (by simp)
  | cons x xs ih =>
    intro i r hi hr
    rw [List.flatMap_cons]
    match i with
    | 0 =>
      have h0 : 0 * c + r < (f x).length := by rw [hc x]; simpa using hr
      rw [List.getElem?_append, if_pos h0]
      simp
    | i' + 1 =>
      have hlen : (f x).length ≤ (i' + 1) * c + r := by
        rw [hc x]
        calc c ≤ (i' + 1) * c := Nat.le_mul_of_pos_left c (Nat.succ_pos i')
          _ ≤ (i' + 1) * c + r := Nat.le_add_right _ _
      rw [List.getElem?_append_right hlen, hc x]
      have harith : (i' + 1) * c + r - c = i' * c + r := by
        have : (i' + 1) * c = i' * c + c := by ring
        omega
      rw [harith, ih i' r (by simpa using hi) hr]
      simp

theorem allIndices_getElem? {p s : List ℕ} (h : List.Forall₂ (· < ·) p s) :
    (allIndices s)[flatten s p]? = some p := by
  induction h with
  | nil => rfl
  | cons h0 h1 ih =>
    rename_i i s0 is ss
    simp only [allIndices, flatten]
    rw [flatMap_uniform_getElem? (List.range s0)
        (fun a => (allIndices ss).map (fun is2 => a :: is2)) ss.prod
        (fun a => by rw [List.length_map, allIndices_length])
        i (flatten ss is) (by simpa using h0) (flatten_lt h1)]
    rw [List.getD_eq_getElem?_getD, List.getElem?_range (by simpa using h0)]
    simp [List.getElem?_map, ih]

theorem crop_array_getD (t : Tensor) (bd p : List ℕ)
    (hp : List.Forall₂ (· < ·) p (List.zipWith (fun s b2 => s - 2 * b2) t.shape
      (bd ++ List.replicate (t.shape.length - bd.length) 0))) :
    (crop t bd).array.getD
        (flatten (List.zipWith (fun s b2 => s - 2 * b2) t.shape
          (bd ++ List.replicate (t.shape.length - bd.length) 0)) p) 0 =
      t.array.getD
        (flatten t.shape (List.zipWith (· + ·) p
          (bd ++ List.replicate (t.shape.length - bd.length) 0))) 0 := by
  unfold crop
  simp only
  rw [List.getD_eq_getElem?_getD, List.getElem?_map, allIndices_getElem? hp]
  rfl

theorem flatten_append_one (s p : List ℕ) (hl : p.length = s.length) (m i : ℕ) :
    flatten (s ++ [m]) (p ++ [i]) = flatten s p * m + i := by
  induction s generalizing p with
  | nil =>
    rw [List.length_nil, List.length_eq_zero] at hl
    subst hl
    simp [flatten]
  | cons s0 ss ih =>
    match p with
    | [] => simp at hl
    | p0 :: ps =>
      show p0 * ((ss ++ [m]).prod) + flatten (ss ++ [m]) (ps ++ [i]) =
        (p0 * ss.prod + flatten ss ps) * m + i
      rw [ih ps (by simpa using hl), List.prod_append, List.prod_cons, List.prod_nil]
      ring

/-! ### UInt32 arithmetic lemmas -/

theorem u32_le (x : ℕ) : u32 x ≤ x := Nat.mod_le x U32SIZE

theorem u32_eq_of_lt {x : ℕ} (h : x < U32SIZE) : u32 x = x := Nat.mod_eq_of_lt h

theorem fToU32_le_nat {x : ℚ} {m : ℕ} (hx : x ≤ (m : ℚ)) : fToU32 x ≤ m := by
  unfold fToU32
  split
  · exact Nat.zero_le m
  · refine le_trans (Nat.min_le_left _ _) ?_
    rw [Int.toNat_le]
    exact le_trans (Int.floor_le_floor hx) (le_of_eq (Int.floor_natCast m))

theorem fToU32_natCast {n : ℕ} (h : n < U32SIZE) : fToU32 (n : ℚ) = n := by
  unfold fToU32
  rw [if_neg (not_lt.mpr (by exact_mod_cast Nat.zero_le n)), Int.floor_natCast,
    Int.toNat_natCast]
  omega

theorem forall₂_lt_of_getD {p s : List ℕ} (hl : p.length = s.length)
    (h : ∀ j, j < s.length → p.getD j 0 < s.getD j 0) :
    List.Forall₂ (· < ·) p s := by
  induction s generalizing p with
  | nil =>
    rw [List.length_nil, List.length_eq_zero] at hl
    subst hl
    exact List.Forall₂.nil
  | cons s0 ss ih =>
    match p with
    | [] => simp at hl
    | p0 :: ps =>
      refine List.Forall₂.cons (h 0 (by simp)) (ih (by simpa using hl) ?_)
      intro j hj
      exact h (j + 1) (by simpa using hj)

theorem u32prod_le (l : List ℕ) : u32prod l ≤ l.prod := by
  suffices h : ∀ (a : ℕ), l.foldl (fun a s => u32 (a * u32 s)) a ≤ a * l.prod by
    simpa using h 1
  induction l with
  | nil => intro a; simp
  | cons s ss ih =>
    intro a
    simp only [List.foldl_cons, List.prod_cons]
    refine le_trans (ih _) ?_
    have h1 : u32 (a * u32 s) ≤ a * s :=
      le_trans (u32_le _) (Nat.mul_le_mul_left a (u32_le s))
    calc u32 (a * u32 s) * ss.prod ≤ a * s * ss.prod := Nat.mul_le_mul_right _ h1
      _ = a * (s * ss.prod) := by ring

theorem u32prod_eq {l : List ℕ} (hpos : ∀ s ∈ l, 0 < s) (hlt : l.prod < U32SIZE) :
    u32prod l = l.prod := by
  suffices h : ∀ (a : ℕ), 0 < a → a * l.prod < U32SIZE →
      l.foldl (fun a s => u32 (a * u32 s)) a = a * l.prod by
    simpa using h 1 Nat.one_pos (by simpa using hlt)
  clear hlt
  induction l with
  | nil => intro a _ _; simp
  | cons s ss ih =>
    intro a ha hlt
    simp only [List.prod_cons] at hlt
    have hs : 0 < s := hpos s (List.mem_cons_self s ss)
    have hssp : 0 < ss.prod :=
      List.prod_pos (fun x hx => hpos x (List.mem_cons_of_mem _ hx))
    have hsU : s < U32SIZE := by
      have : s ≤ a * (s * ss.prod) := by
        calc s ≤ s * ss.prod := Nat.le_mul_of_pos_right s hssp
          _ ≤ a * (s * ss.prod) := Nat.le_mul_of_pos_left _ ha
      omega
    have hasU : a * s < U32SIZE := by
      have : a * s ≤ a * (s * ss.prod) := by
        rw [← Nat.mul_assoc]
        exact Nat.le_mul_of_pos_right _ hssp
      omega
    simp only [List.foldl_cons]
    rw [u32_eq_of_lt hsU, u32_eq_of_lt hasU]
    rw [ih (fun x hx => hpos x (List.mem_cons_of_mem _ hx)) (a * s)
      (Nat.mul_pos ha hs) (by rw [Nat.mul_assoc]; exact hlt), List.prod_cons]
    ring

theorem tapOffset_le : ∀ (size lo t : List ℕ),
    (∀ j, j < size.length → 0 < size.getD j 0) →
    (∀ j, j < size.length → u32 (t.getD j 0 + lo.getD j 0) ≤ size.getD j 0 - 1) →
    tapOffset size lo t ≤ size.prod - 1 := by
  intro size
  induction size with
  | nil => intro lo t _ _; simp [tapOffset]
  | cons s ss ih =>
    intro lo t hpos hd
    have hs : 0 < s := hpos 0 (by simp)
    have hssp : 0 < ss.prod := by
      refine List.prod_pos ?_
      intro x hx
      obtain ⟨j, hj, rfl⟩ := List.getElem_of_mem hx
      have := hpos (j + 1) (by simpa using hj)
      simpa [List.getD_eq_getElem?_getD, List.getElem?_eq_getElem hj] using this
    match lo, t with
    | [], _ =>
      have h8 := Nat.le_sub_one_of_lt (Nat.mul_pos hs hssp)
      simp only [tapOffset, List.prod_cons]
      exact le_trans (Nat.zero_le _) h8
    | _ :: _, [] =>
      have h8 := Nat.le_sub_one_of_lt (Nat.mul_pos hs hssp)
      simp only [tapOffset, List.prod_cons]
      exact le_trans (Nat.zero_le _) h8
    | l :: ls, tt :: ts =>
      have hih : tapOffset ss ls ts ≤ ss.prod - 1 := by
        refine ih ls ts (fun j hj => hpos (j + 1) (by simpa using hj)) ?_
        intro j hj
        exact hd (j + 1) (by simpa using hj)
      have hd0 : u32 (tt + l) ≤ s - 1 := hd 0 (by simp)
      show u32 (tapOffset ss ls ts + u32 (u32 (tt + l) * u32prod ss)) ≤ _
      have hlt : tapOffset ss ls ts + u32 (u32 (tt + l) * u32prod ss) < s * ss.prod := by
        have h1 : u32 (u32 (tt + l) * u32prod ss) ≤ (s - 1) * ss.prod :=
          le_trans (u32_le _) (Nat.mul_le_mul hd0 (u32prod_le ss))
        have h2 : tapOffset ss ls ts + u32 (u32 (tt + l) * u32prod ss) ≤
            (ss.prod - 1) + (s - 1) * ss.prod := Nat.add_le_add hih h1
        refine lt_of_le_of_lt h2 ?_
        have h3 : (ss.prod - 1) + (s - 1) * ss.prod < ss.prod + (s - 1) * ss.prod := by
          omega
        refine lt_of_lt_of_le h3 (le_of_eq ?_)
        conv_rhs => rw [← Nat.sub_add_cancel hs]
        ring
      rw [List.prod_cons]
      exact le_trans (u32_le _) (Nat.le_sub_one_of_lt hlt)

theorem tapOffset_eq : ∀ (size lo t : List ℕ),
    lo.length = size.length → t.length = size.length →
    (∀ j, j < size.length → t.getD j 0 + lo.getD j 0 < size.getD j 0) →
    size.prod < U32SIZE →
    tapOffset size lo t = flatten size (List.zipWith (· + ·) t lo) := by
  intro size
  induction size with
  | nil =>
    intro lo t hl ht _ _
    rw [List.length_nil, List.length_eq_zero] at hl ht
    subst hl; subst ht
    rfl
  | cons s ss ih =>
    intro lo t hl ht hd hU
    match lo, t with
    | [], _ => simp at hl
    | _ :: _, [] => simp at ht
    | l :: ls, tt :: ts =>
      have hpos : ∀ j, j < ss.length → 0 < ss.getD j 0 := by
        intro j hj
        have h7 := hd (j + 1) (by simpa using hj)
        simp only [List.getD_cons_succ] at h7
        omega
      have hssp : 0 < ss.prod := by
        refine List.prod_pos ?_
        intro x hx
        obtain ⟨j, hj, rfl⟩ := List.getElem_of_mem hx
        have := hpos j hj
        simpa [List.getD_eq_getElem?_getD, List.getElem?_eq_getElem hj] using this
      have hd0 : tt + l < s := hd 0 (by simp)
      have hsU : s * ss.prod < U32SIZE := by simpa [List.prod_cons] using hU
      have hssU : ss.prod < U32SIZE := by
        have : ss.prod ≤ s * ss.prod := Nat.le_mul_of_pos_left _ (by omega)
        omega
      have hih : tapOffset ss ls ts = flatten ss (List.zipWith (· + ·) ts ls) := by
        refine ih ls ts (by simpa using hl) (by simpa using ht) ?_ hssU
        intro j hj
        exact hd (j + 1) (by simpa using hj)
      have hflt : flatten ss (List.zipWith (· + ·) ts ls) < ss.prod := by
        refine flatten_lt (forall₂_lt_of_getD ?_ ?_)
        · rw [List.length_zipWith, (by simpa using ht : ts.length = ss.length),
            (by simpa using hl : ls.length = ss.length)]
          exact Nat.min_self _
        · intro j hj
          have hgz : (List.zipWith (· + ·) ts ls).getD j 0 ≤ ts.getD j 0 + ls.getD j 0 := by
            rw [List.getD_eq_getElem?_getD, List.getElem?_zipWith]
            cases h1 : ts[j]? with
            | none => simp [List.getD_eq_getElem?_getD]
            | some a =>
              cases h2 : ls[j]? with
              | none => simp [List.getD_eq_getElem?_getD]
              | some b2 =>
                simp [List.getD_eq_getElem?_getD, h1, h2]
          exact lt_of_le_of_lt hgz (hd (j + 1) (by simpa using hj))
      show u32 (tapOffset ss ls ts + u32 (u32 (tt + l) * u32prod ss)) = _
      have hu1 : u32 (tt + l) = tt + l := u32_eq_of_lt (by
        have : s ≤ s * ss.prod := Nat.le_mul_of_pos_right s hssp
        omega)
      rw [hu1, u32prod_eq (fun x hx => by
          obtain ⟨j, hj, rfl⟩ := List.getElem_of_mem hx
          have := hpos j hj
          simpa [List.getD_eq_getElem?_getD, List.getElem?_eq_getElem hj] using this) hssU]
      have hu2 : u32 ((tt + l) * ss.prod) = (tt + l) * ss.prod := u32_eq_of_lt (by
        have : (tt + l) * ss.prod < s * ss.prod := (Nat.mul_lt_mul_right hssp).mpr hd0
        omega)
      rw [hu2, hih]
      have hu3 : flatten ss (List.zipWith (· + ·) ts ls) + (tt + l) * ss.prod <
          U32SIZE := by
        have h4 : (tt + l) * ss.prod ≤ (s - 1) * ss.prod :=
          Nat.mul_le_mul_right _ (by omega)
        have h5 : flatten ss (List.zipWith (· + ·) ts ls) + (tt + l) * ss.prod <
            ss.prod + (s - 1) * ss.prod := by omega
        have h6 : ss.prod + (s - 1) * ss.prod = s * ss.prod := by
          conv_rhs => rw [← Nat.sub_add_cancel (by omega : 1 ≤ s)]
          ring
        omega
      rw [u32_eq_of_lt hu3]
      show _ = (tt + l) * ss.prod + flatten ss (List.zipWith (· + ·) ts ls)
      ring

/-! ### Per-channel scatter runs -/

theorem foldl_scatter_disabled (a : List ℚ) (ops : List ScatterOp)
    (h : ∀ op ∈ ops, op.enabled = false) : ops.foldl scatterAdd a = a := by
  induction ops with
  | nil => rfl
  | cons op rest ih =>
    rw [List.foldl_cons]
    have h0 : scatterAdd a op = a := by
      unfold scatterAdd
      rw [h op (List.mem_cons_self op rest)]
      simp
    rw [h0]
    exact ih (fun o ho => h o (List.mem_cons_of_mem _ ho))

theorem foldl_scatter_channel_run (a : List ℚ) (base m : ℕ) (v : ℕ → ℚ) :
    ∀ i, (((List.range m).map (fun k => (⟨base + k, v k, true⟩ : ScatterOp))).foldl
        scatterAdd a).getD i 0 =
      a.getD i 0 +
        (if base ≤ i ∧ i < base + m ∧ i < a.length then v (i - base) else 0) := by
  induction m with
  | zero =>
    intro i
    simp
    omega
  | succ m ih =>
    intro i
    rw [List.range_succ, List.map_append, List.foldl_append]
    simp only [List.map_cons, List.map_nil, List.foldl_cons, List.foldl_nil]
    rw [getD_scatterAdd, ih i, length_foldl_scatterAdd]
    by_cases h1 : i = base + m
    · subst h1
      by_cases h2 : base + m < a.length
      · simp [h2, Nat.add_sub_cancel_left]
      · simp [h2]
    · have h3 : ¬(base + m = i) := fun h => h1 h.symm
      simp only [true_and, h3, false_and, and_false, if_false, add_zero]
      by_cases h4 : base ≤ i ∧ i < base + m ∧ i < a.length
      · rw [if_pos h4, if_pos ⟨h4.1, by omega, h4.2.2⟩]
      · rw [if_neg h4, if_neg (by intro h5; exact h4 ⟨h5.1, by omega, h5.2.2⟩)]

theorem channel_index_eq {offset ch k : ℕ} (hch : ch < U32SIZE) (hk : k < ch)
    (hbound : offset * ch + ch ≤ U32SIZE) :
    u32 (u32 (offset * u32 ch) + u32 k) = offset * ch + k := by
  rw [u32_eq_of_lt hch, u32_eq_of_lt (lt_of_lt_of_le hk (le_of_lt hch))]
  have h1 : offset * ch < U32SIZE := by omega
  rw [u32_eq_of_lt h1]
  exact u32_eq_of_lt (by omega)

/-! ### Develop / crop structure lemmas -/

theorem crop_shape (t : Tensor) (bd : List ℕ) :
    (crop t bd).shape = List.zipWith (fun s b2 => s - 2 * b2) t.shape
      (bd ++ List.replicate (t.shape.length - bd.length) 0) := rfl

theorem crop_array_length (t : Tensor) (bd : List ℕ) :
    (crop t bd).array.length = (crop t bd).shape.prod := by
  show ((allIndices _).map _).length = _
  rw [List.length_map, allIndices_length]
  rfl

theorem develop_eq (b : Block) (sd : List ℕ) (ch : ℕ)
    (hshape : b.m_data.shape = sd ++ [ch]) :
    develop b false =
      crop ⟨sd ++ [ch - 2],
        (List.range (sd.prod * (ch - 2))).map (fun i =>
          if b.m_data.array.getD ((i / (ch - 2)) * ch + 4) 0 > 0 then
            b.m_data.array.getD ((i / (ch - 2)) * ch + (i % (ch - 2))) 0 /
              b.m_data.array.getD ((i / (ch - 2)) * ch + 4) 0
          else 0)⟩ b.m_original_border_size := by
  unfold develop
  rw [if_neg (by simp)]
  rw [hshape, List.dropLast_concat, List.getLastD_concat]

theorem zip_unpad (ds os : List ℕ) (h : os.length = ds.length) :
    List.zipWith (fun s o => s - 2 * o)
      (List.zipWith (fun d o => d + 2 * o) ds os) os = ds := by
  induction ds generalizing os with
  | nil => simp
  | cons d ds ih =>
    match os with
    | [] => simp at h
    | o :: os =>
      simp only [List.zipWith_cons_cons]
      rw [ih os (by simpa using h)]
      congr 1
      omega

/-! ### Claim C1 -/

attribute [local semireducible] Rat.add Rat.mul Rat.inv Rat.sub in
/-- C1 (counterexample): the claim states that `develop(raw=False)` keeps
`channel_count - 1` channels, dropping exactly one (the weight channel).
On a block of dimensions `[2,3]` with `channel_count = 5` and a box
filter, the developed shape is `[2,3,3]` — `channel_count - 2` channels,
not the claimed `[2,3,4]`. -/
theorem C1_counterexample :
    (develop (blockOf (initBlock [2, 3] 5 (.single boxF) true false)) false).shape
        = [2, 3, 3] ∧
      ([2, 3, 3] : List ℕ) ≠ [2, 3] ++ [5 - 1] := by decide

/-- C1 (amended): for every configured block, `develop` with `raw=False`
returns a buffer of exactly `dimensions` shape — `max_border_width[j]`
cells are removed from both ends of every axis `j` where it is nonzero —
but with `channel_count - 2` channels: two channels (the alpha channel and
the reserved weight channel) are dropped relative to the accumulation
buffer. -/
theorem C1_amended (b : Block) (ch : ℕ)
    (hlen : b.m_original_border_size.length = b.m_size.length)
    (hshape : b.m_data.shape =
      List.zipWith (fun d o => d + 2 * o) b.m_size b.m_original_border_size ++ [ch]) :
    (develop b false).shape = b.m_size ++ [ch - 2] ∧
      (develop b false).array.length = b.m_size.prod * (ch - 2) := by
  have hsdlen : (List.zipWith (fun d o => d + 2 * o) b.m_size
      b.m_original_border_size).length = b.m_size.length := by
    rw [List.length_zipWith, hlen]
    exact Nat.min_self _
  have hdev := develop_eq b _ ch hshape
  have hshape2 : (develop b false).shape = b.m_size ++ [ch - 2] := by
    rw [hdev, crop_shape]
    simp only [List.length_append, List.length_singleton, hsdlen]
    have hrep : b.m_size.length + 1 - b.m_original_border_size.length = 1 := by
      rw [hlen]; omega
    rw [hrep]
    rw [List.zipWith_append _ _ _ _ _ (by rw [hsdlen, hlen])]
    rw [zip_unpad _ _ hlen]
    simp
  refine ⟨hshape2, ?_⟩
  rw [hdev, crop_array_length, ← hdev, hshape2, List.prod_append, List.prod_cons,
    List.prod_nil, mul_one]

attribute [local semireducible] Rat.add Rat.mul Rat.inv Rat.sub in
/-- C1 (witness): the amended statement at the `[2,3]`, 5-channel block. -/
theorem C1_amended_witness :
    (develop (blockOf (initBlock [2, 3] 5 (.single boxF) true false)) false).shape =
        (blockOf (initBlock [2, 3] 5 (.single boxF) true false)).m_size ++ [5 - 2] ∧
      (develop (blockOf (initBlock [2, 3] 5 (.single boxF) true false))
            false).array.length =
        (blockOf (initBlock [2, 3] 5 (.single boxF) true false)).m_size.prod * (5 - 2) :=
  C1_amended (blockOf (initBlock [2, 3] 5 (.single boxF) true false)) 5
    (by decide) (by decide)

/-! ### Claim C2 -/

theorem getD_map_range {α : Type} (d : α) (n i : ℕ) (f : ℕ → α) (h : i < n) :
    ((List.range n).map f).getD i d = f i := by
  rw [List.getD_eq_getElem?_getD, List.getElem?_map, List.getElem?_range h]
  rfl

/-- C2: for every block state (with the usual 5-channel layout, where the
last channel is the weight accumulator read by `develop` at channel
index 4), and for every output cell whose accumulated weight is `0`,
`develop` with `raw=False` reports exactly `0` for each output channel of
that cell: the division is masked by `weight > 0.0` rather than performed
unconditionally. -/
theorem C2_weight_zero_masked (b : Block) (sd p : List ℕ) (c : ℕ)
    (hshape : b.m_data.shape = sd ++ [5])
    (hlen : b.m_original_border_size.length = sd.length)
    (hp : List.Forall₂ (· < ·) p
      (List.zipWith (fun s o => s - 2 * o) sd b.m_original_border_size))
    (hc : c < 3)
    (hw : b.m_data.array.getD
      (flatten sd (List.zipWith (· + ·) p b.m_original_border_size) * 5 + 4) 0 = 0) :
    (develop b false).array.getD
      (flatten (List.zipWith (fun s o => s - 2 * o) sd b.m_original_border_size ++ [3])
        (p ++ [c])) 0 = 0 := by
  have hplen : p.length = sd.length := by
    have := hp.length_eq
    rw [List.length_zipWith, hlen, Nat.min_self] at this
    exact this
  have hdev := develop_eq b sd 5 hshape
  have hbd' : b.m_original_border_size ++
      List.replicate ((sd ++ [5 - 2]).length - b.m_original_border_size.length) 0 =
        b.m_original_border_size ++ [0] := by
    rw [List.length_append, List.length_singleton, hlen]
    have h1 : sd.length + 1 - sd.length = 1 := by omega
    rw [h1]
    rfl
  have hp2 : List.Forall₂ (· < ·) (p ++ [c])
      (List.zipWith (fun s b2 => s - 2 * b2) (sd ++ [5 - 2])
        (b.m_original_border_size ++
          List.replicate ((sd ++ [5 - 2]).length - b.m_original_border_size.length) 0)) := by
    rw [hbd', List.zipWith_append _ _ _ _ _ hlen.symm]
    refine List.rel_append hp ?_
    exact List.Forall₂.cons (by simpa using hc) List.Forall₂.nil
  rw [hdev]
  have hacc := crop_array_getD ⟨sd ++ [5 - 2],
    (List.range (sd.prod * (5 - 2))).map (fun i =>
      if b.m_data.array.getD ((i / (5 - 2)) * 5 + 4) 0 > 0 then
        b.m_data.array.getD ((i / (5 - 2)) * 5 + (i % (5 - 2))) 0 /
          b.m_data.array.getD ((i / (5 - 2)) * 5 + 4) 0
      else 0)⟩ b.m_original_border_size (p ++ [c]) hp2
  simp only at hacc
  rw [hbd'] at hacc
  rw [List.zipWith_append _ _ _ _ _ hlen.symm] at hacc
  have hz3 : List.zipWith (fun s b2 => s - 2 * b2) [5 - 2] [0] = [3] := by decide
  rw [hz3] at hacc
  rw [hacc]
  rw [List.zipWith_append _ _ _ _ _ (by rw [hplen, hlen])]
  have hzc : List.zipWith (· + ·) [c] [0] = [c] := by simp
  rw [hzc]
  have hq : List.Forall₂ (· < ·) (List.zipWith (· + ·) p b.m_original_border_size) sd := by
    refine forall₂_lt_of_getD ?_ ?_
    · rw [List.length_zipWith, hplen, hlen, Nat.min_self]
    · intro j hj
      have hj2 : j < p.length := by rw [hplen]; exact hj
      have hj3 : j < b.m_original_border_size.length := by rw [hlen]; exact hj
      have hget := (List.forall₂_iff_get.mp hp).2 j hj2 (by
        rw [List.length_zipWith, hlen, Nat.min_self]; exact hj)
      simp only [List.get_eq_getElem, List.getElem_zipWith] at hget
      have he1 : (List.zipWith (· + ·) p b.m_original_border_size).getD j 0 =
          p[j] + b.m_original_border_size[j] := by
        rw [List.getD_eq_getElem?_getD, List.getElem?_zipWith]
        simp [List.getElem?_eq_getElem hj2, List.getElem?_eq_getElem hj3]
      have he2 : sd.getD j 0 = sd[j] := by
        rw [List.getD_eq_getElem?_getD, List.getElem?_eq_getElem hj]
        rfl
      rw [he1, he2]
      omega
  have hcell : flatten sd (List.zipWith (· + ·) p b.m_original_border_size) < sd.prod :=
    flatten_lt hq
  rw [flatten_append_one sd _ (by rw [List.length_zipWith, hplen, hlen, Nat.min_self])]
  rw [getD_map_range _ _ _ _ (by
    have h5 : (5 : ℕ) - 2 = 3 := by norm_num
    rw [h5]
    calc flatten sd (List.zipWith (· + ·) p b.m_original_border_size) * 3 + c
        < flatten sd (List.zipWith (· + ·) p b.m_original_border_size) * 3 + 3 := by omega
      _ ≤ sd.prod * 3 := by
          have := hcell
          nlinarith)]
  have hdiv : (flatten sd (List.zipWith (· + ·) p b.m_original_border_size) * 3 + c) /
      (5 - 2) = flatten sd (List.zipWith (· + ·) p b.m_original_border_size) := by
    omega
  rw [hdiv, hw]
  simp

attribute [local semireducible] Rat.add Rat.mul Rat.inv Rat.sub in
/-- C2 (witness): the freshly cleared `B1` has weight `0` at cell `1`, and
`develop` reports `0` for that cell's first output channel. -/
theorem C2_weight_zero_masked_witness :
    (develop B1 false).array.getD
      (flatten (List.zipWith (fun s o => s - 2 * o) [4] B1.m_original_border_size ++ [3])
        ([1] ++ [0])) 0 = 0 :=
  C2_weight_zero_masked B1 [4] [1] 0 (by decide) (by decide) (by decide) (by decide)
    (by decide)

/-! ### Claim C5 -/

theorem configureWithList_isOk (b : Block) (fs : List RFilter) (border : Bool) :
    isOk (configureWithList b fs border) = true ↔ fs.length = b.m_size.length := by
  unfold configureWithList
  by_cases h : b.m_size.length ≠ fs.length
  · rw [if_pos h]
    simp only [isOk, Bool.false_eq_true, false_iff]
    exact fun hh => h hh.symm
  · rw [if_neg h]
    simp only [isOk, true_iff]
    push_neg at h
    exact h.symm

theorem configureWithList_fields (b : Block) (fs : List RFilter) (border : Bool)
    (b2 : Block) (hcf : configureWithList b fs border = .ok b2) :
    b2.m_filter = some fs ∧ b2.m_size = b.m_size ∧ b2.m_data = b.m_data ∧
      b2.m_channel_count = b.m_channel_count ∧ b2.m_normalize = b.m_normalize ∧
      b2.m_offset = b.m_offset ∧
      b2.filter_radius = fs.map (fun f => f.radius) ∧
      b2.m_weights = List.replicate ((fs.map (fun f => f.radius)).map filterTaps).sum 0 := by
  unfold configureWithList at hcf
  by_cases h : b.m_size.length ≠ fs.length
  · rw [if_pos h] at hcf
    exact absurd hcf (by simp)
  · rw [if_neg h] at hcf
    rw [Except.ok.injEq] at hcf
    subst hcf
    by_cases h2 : b.m_filter.isNone <;> simp [h2]

attribute [local semireducible] Rat.add Rat.mul Rat.inv Rat.sub in
/-- C5 (counterexample): the claim states that a filter list of length 1
is accepted (and broadcast); but with dimensions `[4,4,3]` and the
one-element filter list `[boxF]`, configuration raises. -/
theorem C5_counterexample :
    isOk (initBlock [4, 4, 3] 5 (.list [boxF]) true false) = false ∧
      ([boxF] : List RFilter).length = 1 :=
  ⟨by decide, rfl⟩

/-- C5 (amended): configuration fails if and only if either no filter is
supplied, or a filter *list* is supplied whose length differs from the
number of dimensions (a one-element list is only accepted for exactly one
dimension); a single non-list filter is broadcast to every axis.  In the
failure case only an error value is returned — the block is not mutated
and no buffer is allocated. -/
theorem C5_amended (b : Block) (fa : FilterArg) (border : Bool) :
    (isOk (configure_filter b fa border) = true ↔
      (match fa with
       | .noFilter => False
       | .single _ => True
       | .list fs => fs.length = b.m_size.length)) ∧
    (∀ f b2, fa = .single f → configure_filter b fa border = .ok b2 →
      b2.m_filter = some (List.replicate b.m_size.length f)) := by
  cases fa with
  | noFilter =>
    refine ⟨by simp [configure_filter, isOk], ?_⟩
    intro f b2 hf
    exact absurd hf (by simp)
  | single f =>
    constructor
    · show isOk (configureWithList b (List.replicate b.m_size.length f) border)
          = true ↔ _
      rw [configureWithList_isOk]
      simp
    · intro f2 b2 hf hcf
      cases hf
      exact (configureWithList_fields b _ border b2 hcf).1
  | list fs =>
    constructor
    · show isOk (configureWithList b fs border) = true ↔ _
      rw [configureWithList_isOk]
    · intro f b2 hf
      exact absurd hf (by simp)

/-- C5 (witness): the amended broadcast clause at a concrete block:
reconfiguring `B1` with the single (non-list) filter `f15` succeeds and
stores the filter broadcast to every axis. -/
theorem C5_amended_witness :
    (blockOf (configure_filter B1 (.single f15) true)).m_filter =
      some (List.replicate B1.m_size.length f15) := by
  have h := C5_amended B1 (.single f15) true
  cases hcf : configure_filter B1 (.single f15) true with
  | error e =>
    have h1 := h.1
    rw [hcf] at h1
    simp [isOk] at h1
  | ok b2 =>
    have h2 := h.2 f15 b2 rfl hcf
    exact h2

/-! ### Claim C8 -/

/-- C8: reconfiguring an already-configured block with a (broadcast)
filter whose border is smaller than the original border, with unchanged
dimensions, does not touch the data buffer at all (no reallocation: the
physical extent stays `dimensions + 2 * max_border_width`), keeps
`m_original_border_size`, and sets the origin shift
`m_border_offset = max_border_width - border_width`, so subsequent
`put`/`develop` calls see the shifted logical window. -/
theorem C8_border_shrink (b : Block) (f : RFilter) (b2 : Block)
    (hsome : b.m_filter.isNone = false)
    (horig : ∀ j, j < b.m_size.length →
      b.m_original_border_size.getD j 0 < U32SIZE)
    (hlen : b.m_original_border_size.length = b.m_size.length)
    (hsm : ∀ j, j < b.m_size.length →
      f.border_size ≤ b.m_original_border_size.getD j 0)
    (hne : List.replicate b.m_size.length f.border_size ≠ b.m_original_border_size)
    (hcf : configure_filter b (.single f) true = .ok b2) :
    b2.m_data = b.m_data ∧
      b2.m_original_border_size = b.m_original_border_size ∧
      b2.m_size = b.m_size ∧
      b2.m_border_size = List.replicate b.m_size.length f.border_size ∧
      b2.m_border_offset = List.zipWith (fun o n => o - n)
        b.m_original_border_size (List.replicate b.m_size.length f.border_size) := by
  have hcf2 : configureWithList b (List.replicate b.m_size.length f) true = .ok b2 := hcf
  unfold configureWithList at hcf2
  rw [if_neg (by simp)] at hcf2
  simp only [List.map_replicate, if_true, hsome, Bool.false_eq_true, if_false] at hcf2
  rw [if_pos hne] at hcf2
  rw [Except.ok.injEq] at hcf2
  subst hcf2
  refine ⟨rfl, rfl, rfl, rfl, ?_⟩
  show List.zipWith (fun o n => (U32SIZE + o - n) % U32SIZE)
      b.m_original_border_size (List.replicate b.m_size.length f.border_size) = _
  refine List.ext_getElem? ?_
  intro n
  rw [List.getElem?_zipWith, List.getElem?_zipWith]
  cases h1 : b.m_original_border_size[n]? with
  | none => rfl
  | some o =>
    obtain ⟨hn0, ho⟩ := List.getElem?_eq_some_iff.mp h1
    have hn : n < b.m_size.length := by rw [← hlen]; exact hn0
    rw [List.getElem?_replicate, if_pos hn]
    simp only
    congr 1
    have hgd : b.m_original_border_size.getD n 0 = o := by
      rw [List.getD_eq_getElem?_getD, h1]
      rfl
    have hbs : f.border_size ≤ o := by rw [← hgd]; exact hsm n hn
    have hoU : o < U32SIZE := by rw [← hgd]; exact horig n hn
    show (U32SIZE + o - f.border_size) % U32SIZE = o - f.border_size
    simp only [U32SIZE] at hoU ⊢
    omega

attribute [local semireducible] Rat.add Rat.mul Rat.inv Rat.sub in
/-- C8 (witness): the block first configured with the radius-2.5 filter
(border 2) and then reconfigured with the radius-1.5 filter (border 1):
the buffer is untouched and the origin shift becomes `2 - 1 = 1`. -/
theorem C8_border_shrink_witness :
    B3.m_data = (blockOf (initBlock [4] 5 (.single f25) true false)).m_data ∧
      B3.m_original_border_size =
        (blockOf (initBlock [4] 5 (.single f25) true false)).m_original_border_size ∧
      B3.m_size = (blockOf (initBlock [4] 5 (.single f25) true false)).m_size ∧
      B3.m_border_size = List.replicate
        (blockOf (initBlock [4] 5 (.single f25) true false)).m_size.length
        f15.border_size ∧
      B3.m_border_offset = List.zipWith (fun o n => o - n)
        (blockOf (initBlock [4] 5 (.single f25) true false)).m_original_border_size
        (List.replicate
          (blockOf (initBlock [4] 5 (.single f25) true false)).m_size.length
          f15.border_size) :=
  C8_border_shrink (blockOf (initBlock [4] 5 (.single f25) true false)) f15 B3
    (by decide) (by decide) (by decide) (by decide) (by decide) (by rfl)

/-! ### Claim C9 -/

attribute [local semireducible] Rat.add Rat.mul Rat.inv Rat.sub in
/-- C9 (code evaluation at the failing input): with two axes of two taps
each and the weight table `[1, 1, 2, 2]` (axis 0 sums to 2, axis 1 sums
to 4), the source's normalization pass multiplies only axis 0's weights,
by the reciprocal `1/8` of the product of *all* axes' sums, producing
`[1/8, 1/8, 2, 2]`: neither axis's weights sum to 1 afterwards, contrary
to the claimed per-axis rescale. -/
theorem C9_code_eval :
    normalizeWeights [2, 2] [1, 1, 2, 2] = [1/8, 1/8, 2, 2] ∧
      ((normalizeWeights [2, 2] [1, 1, 2, 2]).take 2).sum ≠ 1 ∧
      (((normalizeWeights [2, 2] [1, 1, 2, 2]).drop 2).take 2).sum ≠ 1 := by
  decide

/-! ### Claim C4 -/

theorem zipWith_zero_add (n : ℕ) (l : List ℕ) (h : l.length = n) :
    List.zipWith (· + ·) (List.replicate n 0) l = l := by
  subst h
  induction l with
  | nil => rfl
  | cons x xs ih =>
    show (0 :: List.replicate xs.length 0).zipWith (· + ·) (x :: xs) = x :: xs
    rw [List.zipWith_cons_cons, ih, Nat.zero_add]

theorem anyWide_eq_false {b : Block}
    (hbox : ∀ r ∈ b.filter_radius, r ≤ 1/2 + RayEpsilon) :
    anyWide b = false := by
  unfold anyWide
  rw [List.any_eq_false]
  intro r hr
  simpa using hbox r hr

attribute [local semireducible] Rat.add Rat.mul Rat.inv Rat.sub in
/-- C4 (counterexample): the claim rounds the buffer-local coordinate with
`floor(coord + 0.5)`; the code uses `ceil(coord - 0.5)` (line 183).  On
`B1`, the raw position `1.0` maps to the local coordinate `0.5`; the
claim's cell is `floor(1.0) = 1`, but the scatter-add lands in cell `0`:
cell 1's channels stay `0` and cell 0's first channel receives the value. -/
theorem C4_counterexample :
    floorQ ((localPos B1 [1]).getD 0 0 + 1/2) = 1 ∧
      (put B1 [1] (2, 3, 4) 1 true).m_data.array.getD (1 * 5 + 0) 0 = 0 ∧
      (put B1 [1] (2, 3, 4) 1 true).m_data.array.getD 0 0 = 2 := by
  decide

/-- C4 (amended): when every axis filter has radius `≤ 0.5 + ε`, `put`
takes the fast path: the buffer-local coordinate is rounded to the
nearest integer cell as `ceil(coord - 0.5)` (note: not
`floor(coord + 0.5)`, which differs at exact half-integers), membership
in `[0, extent)` is tested per axis, and `channel_values[k]` for `k` in
`0..channel_count-2` plus `1.0` into the weight channel are scatter-added
at that single flattened cell index, gated by `active AND in_bounds` — a
sample that is inactive or out of bounds contributes nothing. -/
theorem C4_amended (b : Block) (pos' : List ℚ) (rgb : ℚ × ℚ × ℚ) (alpha : ℚ)
    (active : Bool)
    (hch : b.m_channel_count = 5)
    (hbox : ∀ r ∈ b.filter_radius, r ≤ 1/2 + RayEpsilon)
    (hpos : ∀ j, j < b.m_size.length → 0 < (sizeArr b).getD j 0)
    (hU : (sizeArr b).prod * 5 ≤ U32SIZE)
    (hprodU : (sizeArr b).prod < U32SIZE)
    (i : ℕ) (hi : i < b.m_data.array.length) :
    (put b pos' rgb alpha active).m_data.array.getD i 0 =
      b.m_data.array.getD i 0 +
        (if (active = true ∧ ∀ j, j < b.m_size.length →
              (0 ≤ ceilQ ((localPos b pos').getD j 0 - 1/2) ∧
                ceilQ ((localPos b pos').getD j 0 - 1/2) <
                  ((sizeArr b).getD j 0 : ℚ))) ∧
            flatten (sizeArr b) ((List.range b.m_size.length).map
                (fun j => fToU32 (ceilQ ((localPos b pos').getD j 0 - 1/2)))) * 5 ≤ i ∧
            i < flatten (sizeArr b) ((List.range b.m_size.length).map
                (fun j => fToU32 (ceilQ ((localPos b pos').getD j 0 - 1/2)))) * 5 + 5
          then [rgb.1, rgb.2.1, rgb.2.2, alpha, 1].getD
            (i - flatten (sizeArr b) ((List.range b.m_size.length).map
              (fun j => fToU32 (ceilQ ((localPos b pos').getD j 0 - 1/2)))) * 5) 0
          else 0) := by
  have hwide : anyWide b = false := anyWide_eq_false hbox
  show (put_ b pos' [rgb.1, rgb.2.1, rgb.2.2, alpha, 1] active).m_data.array.getD i 0 = _
  unfold put_
  rw [hwide]
  simp only [Bool.false_eq_true, if_false]
  unfold putOps
  rw [hwide]
  simp only [Bool.false_eq_true, if_false]
  unfold putFastOps
  simp only [hch]
  set L := b.m_size.length with hL
  set pos := localPos b pos' with hposdef
  set size := sizeArr b with hsize
  simp only [fastLoFloat]
  set lo := (List.range L).map (fun j => fToU32 (ceilQ (pos.getD j 0 - 1/2))) with hlo
  have hloget : ∀ j, j < L → lo.getD j 0 = fToU32 (ceilQ (pos.getD j 0 - 1/2)) := by
    intro j hj
    rw [hlo, getD_map_range _ _ _ _ hj]
  have hlolen : lo.length = L := by rw [hlo, List.length_map, List.length_range]
  have hsizelen : size.length = L := by
    rw [hsize]
    unfold sizeArr
    rw [List.length_map, List.length_range]
  by_cases hen : active = true ∧ ∀ j, j < L →
      (0 ≤ ceilQ (pos.getD j 0 - 1/2) ∧
        ceilQ (pos.getD j 0 - 1/2) < (size.getD j 0 : ℚ))
  · have henb : (active &&
        (List.range L).all (fun j => decide (0 ≤ ceilQ (pos.getD j 0 - 1/2) ∧
          ceilQ (pos.getD j 0 - 1/2) < (size.getD j 0 : ℚ)))) = true := by
      rw [Bool.and_eq_true]
      refine ⟨hen.1, ?_⟩
      rw [List.all_eq_true]
      intro j hj
      rw [decide_eq_true_iff]
      exact hen.2 j (List.mem_range.mp hj)
    have hdig : ∀ j, j < L → 0 + lo.getD j 0 < size.getD j 0 := by
      intro j hj
      rw [Nat.zero_add, hloget j hj]
      obtain ⟨h0, h1⟩ := hen.2 j hj
      have hsj : 1 ≤ size.getD j 0 := hpos j hj
      refine Nat.lt_of_le_of_lt (fToU32_le_nat (x := ceilQ (pos.getD j 0 - 1/2))
        (m := size.getD j 0 - 1) ?_) (by omega)
      unfold ceilQ
      unfold ceilQ at h1
      have hcast : ((size.getD j 0 - 1 : ℕ) : ℚ) = (size.getD j 0 : ℚ) - 1 := by
        push_cast [hsj]
        ring
      rw [hcast]
      have h3 : ⌈pos.getD j 0 - 1/2⌉ < (size.getD j 0 : ℤ) := by exact_mod_cast h1
      have h4 : ⌈pos.getD j 0 - 1/2⌉ ≤ (size.getD j 0 : ℤ) - 1 := by omega
      exact_mod_cast h4
    have hoff : tapOffset size lo (List.replicate L 0) = flatten size lo := by
      rw [tapOffset_eq size lo (List.replicate L 0) (by rw [hlolen, hsizelen])
        (by rw [List.length_replicate, hsizelen])
        (by
          intro j hj
          rw [hsizelen] at hj
          have h5 := hdig j hj
          have h6 : (List.replicate L 0).getD j 0 = 0 := by
            rw [List.getD_eq_getElem?_getD, List.getElem?_replicate, if_pos hj]
            rfl
          rw [h6]
          exact h5)
        hprodU]
      rw [zipWith_zero_add L lo hlolen]
    have hflt : flatten size lo < size.prod := by
      refine flatten_lt (forall₂_lt_of_getD (by rw [hlolen, hsizelen]) ?_)
      intro j hj
      rw [hsizelen] at hj
      have := hdig j hj
      omega
    have hidx : ∀ k, k < 5 →
        u32 (u32 (tapOffset size lo (List.replicate L 0) * u32 5) + u32 k) =
          flatten size lo * 5 + k := by
      intro k hk
      rw [hoff]
      refine channel_index_eq (by simp [U32SIZE]) hk ?_
      have h7 : flatten size lo ≤ size.prod - 1 := by omega
      have h8 : 1 ≤ size.prod := by omega
      calc flatten size lo * 5 + 5 ≤ (size.prod - 1) * 5 + 5 := by
            have := Nat.mul_le_mul_right 5 h7
            omega
        _ = size.prod * 5 := by omega
        _ ≤ U32SIZE := hU
    have hmap : (List.range 5).map (fun k =>
        (⟨u32 (u32 (tapOffset size lo (List.replicate L 0) * u32 5) + u32 k),
          ([rgb.1, rgb.2.1, rgb.2.2, alpha, 1] : List ℚ).getD k 0, active &&
            (List.range L).all (fun j => decide (0 ≤ ceilQ (pos.getD j 0 - 1/2) ∧
              ceilQ (pos.getD j 0 - 1/2) < (size.getD j 0 : ℚ)))⟩ : ScatterOp)) =
        (List.range 5).map (fun k =>
          (⟨flatten size lo * 5 + k,
            ([rgb.1, rgb.2.1, rgb.2.2, alpha, 1] : List ℚ).getD k 0,
            true⟩ : ScatterOp)) := by
      refine List.map_congr_left ?_
      intro k hk
      rw [hidx k (List.mem_range.mp hk), henb]
    rw [hmap, foldl_scatter_channel_run]
    congr 1
    by_cases hb : flatten size lo * 5 ≤ i ∧ i < flatten size lo * 5 + 5
    · rw [if_pos ⟨hb.1, hb.2, hi⟩, if_pos ⟨hen, hb.1, hb.2⟩]
    · rw [if_neg (fun h => hb ⟨h.1, h.2.1⟩), if_neg (fun h => hb ⟨h.2.1, h.2.2⟩)]
  · have henb : (active &&
        (List.range L).all (fun j => decide (0 ≤ ceilQ (pos.getD j 0 - 1/2) ∧
          ceilQ (pos.getD j 0 - 1/2) < (size.getD j 0 : ℚ)))) = false := by
      rw [Bool.and_eq_false_iff]
      by_cases ha : active = true
      · refine Or.inr ?_
        rw [List.all_eq_false]
        push_neg at hen
        obtain ⟨j, hj, hval⟩ := hen ha
        refine ⟨j, List.mem_range.mpr hj, ?_⟩
        simpa using hval
      · exact Or.inl (Bool.eq_false_iff.mpr ha)
    have hdis := foldl_scatter_disabled b.m_data.array ((List.range 5).map (fun k =>
        (⟨u32 (u32 (tapOffset size lo (List.replicate L 0) * u32 5) + u32 k),
          ([rgb.1, rgb.2.1, rgb.2.2, alpha, 1] : List ℚ).getD k 0, active &&
            (List.range L).all (fun j => decide (0 ≤ ceilQ (pos.getD j 0 - 1/2) ∧
              ceilQ (pos.getD j 0 - 1/2) < (size.getD j 0 : ℚ)))⟩ : ScatterOp)))
      (by
        intro op hop
        obtain ⟨k, hk, rfl⟩ := List.mem_map.mp hop
        exact henb)
    rw [hdis, if_neg (fun h => hen h.1), add_zero]

attribute [local semireducible] Rat.add Rat.mul Rat.inv Rat.sub in
/-- C4 (witness): the amended fast-path formula at `B1` with the sample
of the counterexample, evaluated at buffer index `0` (the first channel
of the cell `ceil(0.5 - 0.5) = 0` actually hit). -/
theorem C4_amended_witness :
    (put B1 [1] (2, 3, 4) 1 true).m_data.array.getD 0 0 =
      B1.m_data.array.getD 0 0 +
        (if (true = true ∧ ∀ j, j < B1.m_size.length →
              (0 ≤ ceilQ ((localPos B1 [1]).getD j 0 - 1/2) ∧
                ceilQ ((localPos B1 [1]).getD j 0 - 1/2) <
                  ((sizeArr B1).getD j 0 : ℚ))) ∧
            flatten (sizeArr B1) ((List.range B1.m_size.length).map
                (fun j => fToU32 (ceilQ ((localPos B1 [1]).getD j 0 - 1/2)))) * 5 ≤ 0 ∧
            0 < flatten (sizeArr B1) ((List.range B1.m_size.length).map
                (fun j => fToU32 (ceilQ ((localPos B1 [1]).getD j 0 - 1/2)))) * 5 + 5
          then ([2, 3, 4, 1, 1] : List ℚ).getD
            (0 - flatten (sizeArr B1) ((List.range B1.m_size.length).map
              (fun j => fToU32 (ceilQ ((localPos B1 [1]).getD j 0 - 1/2)))) * 5) 0
          else 0) := by
  exact C4_amended B1 [1] (2, 3, 4) 1 true (by decide) (by decide) (by decide)
    (by decide) (by decide) 0 (by decide)

/-! ### Claim C10 -/

theorem tapIndices_mem_length {n t : List ℕ} (h : t ∈ tapIndices n) :
    t.length = n.length := by
  induction n generalizing t with
  | nil =>
    simp only [tapIndices, List.mem_singleton] at h
    subst h
    rfl
  | cons n0 rest ih =>
    simp only [tapIndices, List.mem_flatMap, List.mem_map] at h
    obtain ⟨t2, ht2, i, _, rfl⟩ := h
    simp [ih ht2]

theorem sizeArr_getD (b : Block) (j : ℕ) (hj : j < b.m_size.length) :
    (sizeArr b).getD j 0 =
      u32 (b.m_size.getD j 0 + 2 * b.m_original_border_size.getD j 0) := by
  unfold sizeArr
  rw [getD_map_range _ _ _ _ hj]

theorem sizeArr_prod (b : Block)
    (horig : b.m_original_border_size.length = b.m_size.length)
    (hsU : ∀ j, j < b.m_size.length →
      b.m_size.getD j 0 + 2 * b.m_original_border_size.getD j 0 < U32SIZE) :
    (sizeArr b).prod =
      (List.zipWith (fun d o => d + 2 * o) b.m_size b.m_original_border_size).prod := by
  congr 1
  refine List.ext_getElem? ?_
  intro n
  unfold sizeArr
  rw [List.getElem?_map, List.getElem?_zipWith]
  by_cases hn : n < b.m_size.length
  · rw [List.getElem?_range hn]
    have hn2 : n < b.m_original_border_size.length := by rw [horig]; exact hn
    obtain ⟨d, hd⟩ : ∃ d, b.m_size[n]? = some d :=
      ⟨b.m_size[n], List.getElem?_eq_some_iff.mpr ⟨hn, rfl⟩⟩
    obtain ⟨o, ho⟩ : ∃ o, b.m_original_border_size[n]? = some o :=
      ⟨b.m_original_border_size[n], List.getElem?_eq_some_iff.mpr ⟨hn2, rfl⟩⟩
    rw [hd, ho]
    show some (u32 (b.m_size.getD n 0 + 2 * b.m_original_border_size.getD n 0)) =
      some (d + 2 * o)
    congr 1
    have hgd : b.m_size.getD n 0 = d := by rw [List.getD_eq_getElem?_getD, hd]; rfl
    have hgo : b.m_original_border_size.getD n 0 = o := by
      rw [List.getD_eq_getElem?_getD, ho]; rfl
    rw [← hgd, ← hgo]
    exact u32_eq_of_lt (hsU n hn)
  · rw [List.getElem?_eq_none (by simpa using Nat.le_of_not_lt hn),
      List.getElem?_eq_none (l := b.m_size) (Nat.le_of_not_lt hn)]
    rfl

theorem fToU32_le_sizeSub1 {b : Block} {pos : List ℚ} {j : ℕ}
    (hsj : 0 < (sizeArr b).getD j 0) :
    fToU32 (hiFloat b pos j) ≤ (sizeArr b).getD j 0 - 1 := by
  refine fToU32_le_nat ?_
  unfold hiFloat
  have hcast : (((sizeArr b).getD j 0 - 1 : ℕ) : ℚ) =
      ((sizeArr b).getD j 0 : ℚ) - 1 := by
    push_cast [hsj]
    ring
  rw [hcast]
  refine le_trans (min_le_right _ _) ?_
  have hbo : (0 : ℚ) ≤ (b.m_border_offset.getD j 0 : ℚ) := by positivity
  linarith

/-- C10: on a configured block (positive padded extents that fit in
`UInt32`, consistent lengths, and per-axis tap counts not exceeding the
padded extents), every scatter-add of a `put_` call whose enabled mask is
true targets a flat index strictly below
`channel_count * ∏ (dimensions[i] + 2 * max_border_width[i])` — neither
the fast path nor the general path writes outside the allocated buffer,
regardless of the sample position. -/
theorem C10_no_oob_write (b : Block) (pos' value : List ℚ) (active : Bool)
    (hflen : (b.m_filter.getD []).length = b.m_size.length)
    (horig : b.m_original_border_size.length = b.m_size.length)
    (hdims : ∀ j, j < b.m_size.length →
      0 < b.m_size.getD j 0 + 2 * b.m_original_border_size.getD j 0)
    (hsU : ∀ j, j < b.m_size.length →
      b.m_size.getD j 0 + 2 * b.m_original_border_size.getD j 0 < U32SIZE)
    (_hn : ∀ j, j < b.m_size.length →
      (tapCounts b).getD j 0 ≤ (sizeArr b).getD j 0) :
    ∀ op ∈ putOps b pos' value active, op.enabled = true →
      op.index < b.m_channel_count *
        (List.zipWith (fun d o => d + 2 * o) b.m_size
          b.m_original_border_size).prod := by
  intro op hop hen
  rw [← sizeArr_prod b horig hsU]
  have hszlen : (sizeArr b).length = b.m_size.length := by
    unfold sizeArr
    rw [List.length_map, List.length_range]
  have hszpos : ∀ j, j < (sizeArr b).length → 0 < (sizeArr b).getD j 0 := by
    intro j hj
    rw [hszlen] at hj
    rw [sizeArr_getD b j hj, u32_eq_of_lt (hsU j hj)]
    exact hdims j hj
  have hprodpos : 0 < (sizeArr b).prod := by
    refine List.prod_pos ?_
    intro x hx
    obtain ⟨j, hj, rfl⟩ := List.getElem_of_mem hx
    have := hszpos j hj
    simpa [List.getD_eq_getElem?_getD, List.getElem?_eq_getElem hj] using this
  unfold putOps at hop
  by_cases hwide : anyWide b = true
  · -- general path
    rw [if_pos (by rw [hwide])] at hop
    unfold putGeneralOps at hop
    simp only [List.mem_flatMap, List.mem_map] at hop
    obtain ⟨t, ht, k, hk, rfl⟩ := hop
    simp only at hen
    rw [List.mem_range] at hk
    rw [Bool.and_eq_true, List.all_eq_true] at hen
    have hgate : ∀ j, j < (b.m_filter.getD []).length →
        u32 (t.getD j 0 + ((List.range (b.m_filter.getD []).length).map
          (fun j2 => fToU32 (loFloat b (localPos b pos') j2))).getD j 0) ≤
          ((List.range (b.m_filter.getD []).length).map
            (fun j2 => fToU32 (hiFloat b (localPos b pos') j2))).getD j 0 := by
      intro j hj
      have := hen.2 _ (List.mem_range.mpr hj)
      rwa [decide_eq_true_iff] at this
    have hoffb : tapOffset (sizeArr b)
        ((List.range (b.m_filter.getD []).length).map
          (fun j2 => fToU32 (loFloat b (localPos b pos') j2))) t ≤
        (sizeArr b).prod - 1 := by
      refine tapOffset_le _ _ _ hszpos ?_
      intro j hj
      rw [hszlen] at hj
      have hj2 : j < (b.m_filter.getD []).length := by rw [hflen]; exact hj
      have hg := hgate j hj2
      rw [getD_map_range _ _ _ _ hj2, getD_map_range _ _ _ _ hj2] at hg
      have hhi : fToU32 (hiFloat b (localPos b pos') j) ≤ (sizeArr b).getD j 0 - 1 :=
        fToU32_le_sizeSub1 (by
          refine hszpos j ?_
          rw [hszlen]
          exact hj)
      calc u32 (t.getD j 0 + ((List.range (b.m_filter.getD []).length).map
            (fun j2 => fToU32 (loFloat b (localPos b pos') j2))).getD j 0) =
            u32 (t.getD j 0 + fToU32 (loFloat b (localPos b pos') j)) := by
              rw [getD_map_range _ _ _ _ hj2]
        _ ≤ fToU32 (hiFloat b (localPos b pos') j) := hg
        _ ≤ (sizeArr b).getD j 0 - 1 := hhi
    show u32 (u32 (tapOffset _ _ t * u32 b.m_channel_count) + u32 k) < _
    calc u32 (u32 (tapOffset (sizeArr b) _ t * u32 b.m_channel_count) + u32 k)
        ≤ u32 (tapOffset (sizeArr b) _ t * u32 b.m_channel_count) + u32 k := u32_le _
      _ ≤ tapOffset (sizeArr b) _ t * u32 b.m_channel_count + k :=
          Nat.add_le_add (u32_le _) (u32_le _)
      _ ≤ ((sizeArr b).prod - 1) * b.m_channel_count + k := by
          refine Nat.add_le_add_right ?_ k
          exact Nat.mul_le_mul hoffb (u32_le _)
      _ < b.m_channel_count * (sizeArr b).prod := by
          have h1 : ((sizeArr b).prod - 1) * b.m_channel_count + b.m_channel_count =
              (sizeArr b).prod * b.m_channel_count := by
            conv_rhs => rw [← Nat.sub_add_cancel hprodpos]
            ring
          have h2 : ((sizeArr b).prod - 1) * b.m_channel_count + k <
              ((sizeArr b).prod - 1) * b.m_channel_count + b.m_channel_count := by
            omega
          rw [h1] at h2
          calc ((sizeArr b).prod - 1) * b.m_channel_count + k
              < (sizeArr b).prod * b.m_channel_count := h2
            _ = b.m_channel_count * (sizeArr b).prod := Nat.mul_comm _ _
  · -- fast path
    rw [if_neg hwide] at hop
    unfold putFastOps at hop
    simp only [List.mem_map] at hop
    obtain ⟨k, hk, rfl⟩ := hop
    simp only at hen
    rw [List.mem_range] at hk
    rw [Bool.and_eq_true, List.all_eq_true] at hen
    have hgate : ∀ j, j < b.m_size.length →
        0 ≤ fastLoFloat (localPos b pos') j ∧
          fastLoFloat (localPos b pos') j < ((sizeArr b).getD j 0 : ℚ) := by
      intro j hj
      have := hen.2 _ (List.mem_range.mpr hj)
      rwa [decide_eq_true_iff] at this
    have hdig : ∀ j, j < (sizeArr b).length →
        u32 ((List.replicate b.m_size.length 0).getD j 0 +
          ((List.range b.m_size.length).map
            (fun j2 => fToU32 (fastLoFloat (localPos b pos') j2))).getD j 0) ≤
          (sizeArr b).getD j 0 - 1 := by
      intro j hj
      rw [hszlen] at hj
      have h6 : (List.replicate b.m_size.length 0).getD j 0 = 0 := by
        rw [List.getD_eq_getElem?_getD, List.getElem?_replicate, if_pos hj]
        rfl
      rw [h6, Nat.zero_add, getD_map_range _ _ _ _ hj]
      obtain ⟨h0, h1⟩ := hgate j hj
      have hsj : 0 < (sizeArr b).getD j 0 := by
        refine hszpos j ?_
        rw [hszlen]
        exact hj
      refine le_trans (u32_le _) ?_
      refine fToU32_le_nat ?_
      have hcast : (((sizeArr b).getD j 0 - 1 : ℕ) : ℚ) =
          ((sizeArr b).getD j 0 : ℚ) - 1 := by
        push_cast [hsj]
        ring
      rw [hcast]
      unfold fastLoFloat ceilQ at h1 ⊢
      have h3 : ⌈(localPos b pos').getD j 0 - 1/2⌉ < ((sizeArr b).getD j 0 : ℤ) := by
        exact_mod_cast h1
      have h4 : ⌈(localPos b pos').getD j 0 - 1/2⌉ ≤ ((sizeArr b).getD j 0 : ℤ) - 1 := by
        omega
      exact_mod_cast h4
    have hoffb : tapOffset (sizeArr b)
        ((List.range b.m_size.length).map
          (fun j2 => fToU32 (fastLoFloat (localPos b pos') j2)))
        (List.replicate b.m_size.length 0) ≤ (sizeArr b).prod - 1 := by
      refine tapOffset_le _ _ _ hszpos ?_
      intro j hj
      have h7 := hdig j hj
      rw [hszlen] at hj
      rw [getD_map_range _ _ _ _ hj] at h7
      have h6 : (List.replicate b.m_size.length 0).getD j 0 = 0 := by
        rw [List.getD_eq_getElem?_getD, List.getElem?_replicate, if_pos hj]
        rfl
      rw [getD_map_range _ _ _ _ hj, h6]
      rw [h6, Nat.zero_add] at h7
      rw [Nat.zero_add]
      exact h7
    show u32 (u32 (tapOffset _ _ _ * u32 b.m_channel_count) + u32 k) < _
    calc u32 (u32 (tapOffset (sizeArr b) _ _ * u32 b.m_channel_count) + u32 k)
        ≤ u32 (tapOffset (sizeArr b) _ _ * u32 b.m_channel_count) + u32 k := u32_le _
      _ ≤ tapOffset (sizeArr b) _ _ * u32 b.m_channel_count + k :=
          Nat.add_le_add (u32_le _) (u32_le _)
      _ ≤ ((sizeArr b).prod - 1) * b.m_channel_count + k := by
          refine Nat.add_le_add_right ?_ k
          exact Nat.mul_le_mul hoffb (u32_le _)
      _ < b.m_channel_count * (sizeArr b).prod := by
          have h1 : ((sizeArr b).prod - 1) * b.m_channel_count + b.m_channel_count =
              (sizeArr b).prod * b.m_channel_count := by
            conv_rhs => rw [← Nat.sub_add_cancel hprodpos]
            ring
          have h2 : ((sizeArr b).prod - 1) * b.m_channel_count + k <
              ((sizeArr b).prod - 1) * b.m_channel_count + b.m_channel_count := by
            omega
          rw [h1] at h2
          calc ((sizeArr b).prod - 1) * b.m_channel_count + k
              < (sizeArr b).prod * b.m_channel_count := h2
            _ = b.m_channel_count * (sizeArr b).prod := Nat.mul_comm _ _

attribute [local semireducible] Rat.add Rat.mul Rat.inv Rat.sub in
/-- C10 (witness): on the reconfigured block `B3` (general path, border
offset 1) with a sample far out of bounds on the low side, every enabled
scatter-add still stays inside the allocated buffer. -/
theorem C10_no_oob_write_witness :
    (putOps B3 [-1000] [1, 1, 1, 1, 1] true).all
      (fun op => !op.enabled || decide (op.index < 5 *
        (List.zipWith (fun d o => d + 2 * o) B3.m_size
          B3.m_original_border_size).prod)) = true := by
  rw [List.all_eq_true]
  intro op hop
  have h := C10_no_oob_write B3 [-1000] [1, 1, 1, 1, 1] true (by decide) (by decide)
    (by decide) (by decide) (by decide) op hop
  cases hen : op.enabled with
  | false => rfl
  | true =>
    simp only [Bool.not_true, Bool.false_or]
    rw [decide_eq_true_iff]
    have h2 := h hen
    have hch : B3.m_channel_count = 5 := by decide
    rwa [hch] at h2

/-! ### put_ preservation lemmas -/

theorem put_m_size (b : Block) (pos' value : List ℚ) (active : Bool) :
    (put_ b pos' value active).m_size = b.m_size := by
  unfold put_; split <;> rfl

theorem put_m_channel_count (b : Block) (pos' value : List ℚ) (active : Bool) :
    (put_ b pos' value active).m_channel_count = b.m_channel_count := by
  unfold put_; split <;> rfl

theorem put_m_filter (b : Block) (pos' value : List ℚ) (active : Bool) :
    (put_ b pos' value active).m_filter = b.m_filter := by
  unfold put_; split <;> rfl

theorem put_filter_radius (b : Block) (pos' value : List ℚ) (active : Bool) :
    (put_ b pos' value active).filter_radius = b.filter_radius := by
  unfold put_; split <;> rfl

theorem put_m_border_size (b : Block) (pos' value : List ℚ) (active : Bool) :
    (put_ b pos' value active).m_border_size = b.m_border_size := by
  unfold put_; split <;> rfl

theorem put_m_border_offset (b : Block) (pos' value : List ℚ) (active : Bool) :
    (put_ b pos' value active).m_border_offset = b.m_border_offset := by
  unfold put_; split <;> rfl

theorem put_m_offset (b : Block) (pos' value : List ℚ) (active : Bool) :
    (put_ b pos' value active).m_offset = b.m_offset := by
  unfold put_; split <;> rfl

theorem put_m_original_border_size (b : Block) (pos' value : List ℚ) (active : Bool) :
    (put_ b pos' value active).m_original_border_size =
      b.m_original_border_size := by
  unfold put_; split <;> rfl

theorem put_m_normalize (b : Block) (pos' value : List ℚ) (active : Bool) :
    (put_ b pos' value active).m_normalize = b.m_normalize := by
  unfold put_; split <;> rfl

theorem put_shape (b : Block) (pos' value : List ℚ) (active : Bool) :
    (put_ b pos' value active).m_data.shape = b.m_data.shape := by
  unfold put_; split <;> rfl

theorem put_sizeArr (b : Block) (pos' value : List ℚ) (active : Bool) :
    sizeArr (put_ b pos' value active) = sizeArr b := by
  unfold sizeArr
  rw [put_m_size]
  refine List.map_congr_left ?_
  intro j _
  rw [put_m_original_border_size]

theorem put_localPos (b : Block) (pos' value : List ℚ) (active : Bool)
    (q : List ℚ) :
    localPos (put_ b pos' value active) q = localPos b q := by
  unfold localPos
  refine List.map_congr_left ?_
  intro j _
  rw [put_m_offset, put_m_border_size, put_m_border_offset]

theorem put_anyWide (b : Block) (pos' value : List ℚ) (active : Bool) :
    anyWide (put_ b pos' value active) = anyWide b := by
  unfold anyWide
  rw [put_filter_radius]

theorem put_tapCounts (b : Block) (pos' value : List ℚ) (active : Bool) :
    tapCounts (put_ b pos' value active) = tapCounts b := by
  unfold tapCounts
  rw [put_filter_radius]

theorem put_array_length (b : Block) (pos' value : List ℚ) (active : Bool) :
    (put_ b pos' value active).m_data.array.length = b.m_data.array.length := by
  unfold put_
  split <;> exact length_foldl_scatterAdd _ _

theorem length_writeAxisWeights (f : RFilter) (nj : ℕ) (basej : ℚ)
    (base_index : ℕ) (w : List ℚ) :
    (writeAxisWeights f nj basej base_index w).length = w.length := by
  unfold writeAxisWeights
  induction nj with
  | zero => rfl
  | succ m ih =>
    rw [List.range_succ, List.foldl_append]
    simp only [List.foldl_cons, List.foldl_nil]
    rw [List.length_set, ih]

theorem length_computeWeights : ∀ (fs : List RFilter) (ns : List ℕ) (bs : List ℚ)
    (base_index : ℕ) (w : List ℚ),
    (computeWeights fs ns bs base_index w).length = w.length := by
  intro fs
  induction fs with
  | nil => intro ns bs bi w; cases ns <;> cases bs <;> rfl
  | cons f fs ih =>
    intro ns bs bi w
    match ns, bs with
    | [], _ => rfl
    | _ :: _, [] => rfl
    | nj :: ns, bj :: bs =>
      show (computeWeights fs ns bs _ (writeAxisWeights f nj bj bi w)).length = _
      rw [ih, length_writeAxisWeights]

theorem length_normalizeWeights (n : List ℕ) (w : List ℚ) :
    (normalizeWeights n w).length = w.length := by
  unfold normalizeWeights
  simp only
  induction (n.headD 0) with
  | zero => rfl
  | succ m ih =>
    rw [List.range_succ, List.foldl_append]
    simp only [List.foldl_cons, List.foldl_nil]
    rw [List.length_set, ih]

theorem length_putWeights (b : Block) (pos' : List ℚ) :
    (putWeights b pos').length = b.m_weights.length := by
  unfold putWeights
  simp only
  split
  · rw [length_normalizeWeights, length_computeWeights]
  · rw [length_computeWeights]

theorem put_weights_length (b : Block) (pos' value : List ℚ) (active : Bool) :
    (put_ b pos' value active).m_weights.length = b.m_weights.length := by
  unfold put_
  split
  · exact length_putWeights b pos'
  · rfl

/-! ### Fast-path characterization -/

theorem putFast_cell_lt (b : Block) (pos' : List ℚ)
    (hpos : ∀ j, j < b.m_size.length → 0 < (sizeArr b).getD j 0)
    (hen : ∀ j, j < b.m_size.length →
      (0 ≤ fastLoFloat (localPos b pos') j ∧
        fastLoFloat (localPos b pos') j < ((sizeArr b).getD j 0 : ℚ))) :
    flatten (sizeArr b) ((List.range b.m_size.length).map
      (fun j => fToU32 (fastLoFloat (localPos b pos') j))) < (sizeArr b).prod := by
  have hszlen : (sizeArr b).length = b.m_size.length := by
    unfold sizeArr
    rw [List.length_map, List.length_range]
  refine flatten_lt (forall₂_lt_of_getD
    (by rw [List.length_map, List.length_range, hszlen]) ?_)
  intro j hj
  rw [hszlen] at hj
  rw [getD_map_range _ _ _ _ hj]
  obtain ⟨h0, h1⟩ := hen j hj
  have hsj : 1 ≤ (sizeArr b).getD j 0 := hpos j hj
  refine Nat.lt_of_le_of_lt (fToU32_le_nat (x := fastLoFloat (localPos b pos') j)
    (m := (sizeArr b).getD j 0 - 1) ?_) (by omega)
  unfold fastLoFloat ceilQ
  unfold fastLoFloat ceilQ at h1
  have hcast : (((sizeArr b).getD j 0 - 1 : ℕ) : ℚ) =
      ((sizeArr b).getD j 0 : ℚ) - 1 := by
    push_cast [hsj]
    ring
  rw [hcast]
  have h3 : ⌈(localPos b pos').getD j 0 - 1/2⌉ < ((sizeArr b).getD j 0 : ℤ) := by
    exact_mod_cast h1
  have h4 : ⌈(localPos b pos').getD j 0 - 1/2⌉ ≤ ((sizeArr b).getD j 0 : ℤ) - 1 := by
    omega
  exact_mod_cast h4

theorem putFast_data (b : Block) (pos' value : List ℚ) (active : Bool)
    (hwide : anyWide b = false)
    (hpos : ∀ j, j < b.m_size.length → 0 < (sizeArr b).getD j 0)
    (hU : (sizeArr b).prod * b.m_channel_count ≤ U32SIZE)
    (hchU : b.m_channel_count < U32SIZE)
    (hprodU : (sizeArr b).prod < U32SIZE)
    (hact : active = true)
    (hen : ∀ j, j < b.m_size.length →
      (0 ≤ fastLoFloat (localPos b pos') j ∧
        fastLoFloat (localPos b pos') j < ((sizeArr b).getD j 0 : ℚ))) :
    (put_ b pos' value active).m_data.array =
      ((List.range b.m_channel_count).map (fun k =>
        (⟨flatten (sizeArr b) ((List.range b.m_size.length).map
            (fun j => fToU32 (fastLoFloat (localPos b pos') j))) *
          b.m_channel_count + k, value.getD k 0, true⟩ : ScatterOp))).foldl
        scatterAdd b.m_data.array := by
  unfold put_
  rw [hwide]
  simp only [Bool.false_eq_true, if_false]
  unfold putOps
  rw [hwide]
  simp only [Bool.false_eq_true, if_false]
  unfold putFastOps
  simp only
  congr 1
  set L := b.m_size.length with hL
  set pos := localPos b pos' with hposdef
  set size := sizeArr b with hsize
  set lo := (List.range L).map (fun j => fToU32 (fastLoFloat pos j)) with hlo
  have hloget : ∀ j, j < L → lo.getD j 0 = fToU32 (fastLoFloat pos j) := by
    intro j hj
    rw [hlo, getD_map_range _ _ _ _ hj]
  have hlolen : lo.length = L := by rw [hlo, List.length_map, List.length_range]
  have hsizelen : size.length = L := by
    rw [hsize]
    unfold sizeArr
    rw [List.length_map, List.length_range]
  have henb : (active &&
      (List.range L).all (fun j => decide (0 ≤ fastLoFloat pos j ∧
        fastLoFloat pos j < (size.getD j 0 : ℚ)))) = true := by
    rw [Bool.and_eq_true]
    refine ⟨hact, ?_⟩
    rw [List.all_eq_true]
    intro j hj
    rw [decide_eq_true_iff]
    exact hen j (List.mem_range.mp hj)
  have hflt : flatten size lo < size.prod := putFast_cell_lt b pos' hpos hen
  have hdig : ∀ j, j < L → 0 + lo.getD j 0 < size.getD j 0 := by
    intro j hj
    rw [Nat.zero_add, hloget j hj]
    obtain ⟨h0, h1⟩ := hen j hj
    have hsj : 1 ≤ size.getD j 0 := hpos j hj
    refine Nat.lt_of_le_of_lt (fToU32_le_nat (x := fastLoFloat pos j)
      (m := size.getD j 0 - 1) ?_) (by omega)
    unfold fastLoFloat ceilQ
    unfold fastLoFloat ceilQ at h1
    have hcast : ((size.getD j 0 - 1 : ℕ) : ℚ) = (size.getD j 0 : ℚ) - 1 := by
      push_cast [hsj]
      ring
    rw [hcast]
    have h3 : ⌈pos.getD j 0 - 1/2⌉ < (size.getD j 0 : ℤ) := by exact_mod_cast h1
    have h4 : ⌈pos.getD j 0 - 1/2⌉ ≤ (size.getD j 0 : ℤ) - 1 := by omega
    exact_mod_cast h4
  have hoff : tapOffset size lo (List.replicate L 0) = flatten size lo := by
    rw [tapOffset_eq size lo (List.replicate L 0) (by rw [hlolen, hsizelen])
      (by rw [List.length_replicate, hsizelen])
      (by
        intro j hj
        rw [hsizelen] at hj
        have h5 := hdig j hj
        have h6 : (List.replicate L 0).getD j 0 = 0 := by
          rw [List.getD_eq_getElem?_getD, List.getElem?_replicate, if_pos hj]
          rfl
        rw [h6]
        exact h5)
      hprodU]
    rw [zipWith_zero_add L lo hlolen]
  refine List.map_congr_left ?_
  intro k hk
  rw [List.mem_range] at hk
  rw [henb, hoff]
  have hidx : u32 (u32 (flatten size lo * u32 b.m_channel_count) + u32 k) =
      flatten size lo * b.m_channel_count + k := by
    refine channel_index_eq hchU hk ?_
    have h7 : flatten size lo ≤ size.prod - 1 := by omega
    have h8 : 1 ≤ size.prod := by omega
    calc flatten size lo * b.m_channel_count + b.m_channel_count ≤
          (size.prod - 1) * b.m_channel_count + b.m_channel_count :=
          Nat.add_le_add_right (Nat.mul_le_mul_right _ h7) _
      _ = size.prod * b.m_channel_count := by
          conv_rhs => rw [← Nat.sub_add_cancel h8]
          ring
      _ ≤ U32SIZE := hU
  rw [hidx]

theorem putFast_data_disabled (b : Block) (pos' value : List ℚ) (active : Bool)
    (hwide : anyWide b = false)
    (hnen : ¬(active = true ∧ ∀ j, j < b.m_size.length →
      (0 ≤ fastLoFloat (localPos b pos') j ∧
        fastLoFloat (localPos b pos') j < ((sizeArr b).getD j 0 : ℚ)))) :
    (put_ b pos' value active).m_data.array = b.m_data.array := by
  unfold put_
  rw [hwide]
  simp only [Bool.false_eq_true, if_false]
  unfold putOps
  rw [hwide]
  simp only [Bool.false_eq_true, if_false]
  unfold putFastOps
  simp only
  refine foldl_scatter_disabled _ _ ?_
  intro op hop
  obtain ⟨k, hk, rfl⟩ := List.mem_map.mp hop
  simp only
  rw [Bool.and_eq_false_iff]
  by_cases ha : active = true
  · refine Or.inr ?_
    rw [List.all_eq_false]
    push_neg at hnen
    obtain ⟨j, hj, hval⟩ := hnen ha
    refine ⟨j, List.mem_range.mpr hj, ?_⟩
    simpa using hval
  · exact Or.inl (Bool.eq_false_iff.mpr ha)

/-! ### Claim C7 -/

theorem channelSum_putFast (b : Block) (pos' value : List ℚ) (active : Bool)
    (k : ℕ)
    (hwide : anyWide b = false)
    (hk : k < b.m_channel_count)
    (hlen : b.m_data.array.length = b.m_channel_count * (sizeArr b).prod)
    (hpos : ∀ j, j < b.m_size.length → 0 < (sizeArr b).getD j 0)
    (hU : (sizeArr b).prod * b.m_channel_count ≤ U32SIZE)
    (hchU : b.m_channel_count < U32SIZE)
    (hprodU : (sizeArr b).prod < U32SIZE)
    (hinb : active = true → ∀ j, j < b.m_size.length →
      (0 ≤ fastLoFloat (localPos b pos') j ∧
        fastLoFloat (localPos b pos') j < ((sizeArr b).getD j 0 : ℚ))) :
    channelSum (put_ b pos' value active).m_data.array b.m_channel_count k
        (sizeArr b).prod =
      channelSum b.m_data.array b.m_channel_count k (sizeArr b).prod +
        (if active = true then value.getD k 0 else 0) := by
  by_cases hact : active = true
  · rw [if_pos hact]
    rw [putFast_data b pos' value active hwide hpos hU hchU hprodU hact (hinb hact)]
    set ch := b.m_channel_count with hch
    set n := (sizeArr b).prod with hn
    set cell := flatten (sizeArr b) ((List.range b.m_size.length).map
      (fun j => fToU32 (fastLoFloat (localPos b pos') j))) with hcell
    have hcelln : cell < n :=
      putFast_cell_lt b pos' hpos (hinb hact)
    have hchpos : 0 < ch := by omega
    unfold channelSum
    have hpt : ∀ c, c ∈ Finset.range n →
        (((List.range ch).map (fun k2 =>
          (⟨cell * ch + k2, value.getD k2 0, true⟩ : ScatterOp))).foldl
            scatterAdd b.m_data.array).getD (c * ch + k) 0 =
          b.m_data.array.getD (c * ch + k) 0 +
            (if c = cell then value.getD k 0 else 0) := by
      intro c hc
      rw [Finset.mem_range] at hc
      rw [foldl_scatter_channel_run]
      congr 1
      by_cases hceq : c = cell
      · rw [hceq, if_pos rfl, if_pos ?_]
        · congr 1
          exact Nat.add_sub_cancel_left _ _
        · refine ⟨Nat.le_add_right _ _, Nat.add_lt_add_left hk _, ?_⟩
          rw [hlen]
          calc cell * ch + k < cell * ch + ch := Nat.add_lt_add_left hk _
            _ = (cell + 1) * ch := by ring
            _ ≤ n * ch := Nat.mul_le_mul_right _ (by omega)
            _ = ch * n := Nat.mul_comm _ _
      · rw [if_neg hceq, if_neg ?_]
        intro ⟨h1, h2, h3⟩
        refine hceq ?_
        have hc1 : cell ≤ c := by
          by_contra hlt
          push_neg at hlt
          have h6 : c * ch + k < cell * ch := by
            calc c * ch + k < c * ch + ch := Nat.add_lt_add_left hk _
              _ = (c + 1) * ch := by ring
              _ ≤ cell * ch := Nat.mul_le_mul_right _ (by omega)
          exact absurd h1 (not_le.mpr h6)
        have hc2 : c ≤ cell := by
          by_contra hlt
          push_neg at hlt
          have h6 : cell * ch + ch ≤ c * ch := by
            calc cell * ch + ch = (cell + 1) * ch := by ring
              _ ≤ c * ch := Nat.mul_le_mul_right _ (by omega)
          exact absurd h2 (not_lt.mpr (le_trans h6 (Nat.le_add_right _ _)))
        omega
    rw [Finset.sum_congr rfl hpt, Finset.sum_add_distrib]
    congr 1
    rw [Finset.sum_ite_eq' (Finset.range n) cell (fun _ => value.getD k 0)]
    rw [if_pos (Finset.mem_range.mpr hcelln)]
  · rw [if_neg hact, add_zero]
    rw [putFast_data_disabled b pos' value active hwide (fun h => hact h.1)]

/-- C7: for box filters (every axis radius at most `0.5 + RayEpsilon`,
so `put_` takes the fast path), starting from a cleared buffer, if every
active sample's position lands in bounds then after processing the batch
the sum over all buffer cells of channel `k` equals the sum of
`channel_values[k]` over the active input samples — accumulation neither
creates nor loses energy. -/
theorem C7_conservation (b : Block) (k : ℕ)
    (samples : List (List ℚ × List ℚ × Bool))
    (hbox : ∀ r ∈ b.filter_radius, r ≤ 1/2 + RayEpsilon)
    (hk : k < b.m_channel_count)
    (hclear : b.m_data.array =
      List.replicate (b.m_channel_count * (sizeArr b).prod) 0)
    (hpos : ∀ j, j < b.m_size.length → 0 < (sizeArr b).getD j 0)
    (hU : (sizeArr b).prod * b.m_channel_count ≤ U32SIZE)
    (hchU : b.m_channel_count < U32SIZE)
    (hprodU : (sizeArr b).prod < U32SIZE)
    (hinb : ∀ s ∈ samples, s.2.2 = true → ∀ j, j < b.m_size.length →
      (0 ≤ fastLoFloat (localPos b s.1) j ∧
        fastLoFloat (localPos b s.1) j < ((sizeArr b).getD j 0 : ℚ))) :
    channelSum (putBatch b samples).m_data.array b.m_channel_count k
        (sizeArr b).prod =
      (samples.map (fun s => if s.2.2 = true then s.2.1.getD k 0 else 0)).sum := by
  have hstart : channelSum b.m_data.array b.m_channel_count k (sizeArr b).prod = 0 := by
    unfold channelSum
    refine Finset.sum_eq_zero ?_
    intro c _
    rw [hclear, List.getD_eq_getElem?_getD, List.getElem?_replicate]
    split <;> rfl
  have hlen : b.m_data.array.length = b.m_channel_count * (sizeArr b).prod := by
    rw [hclear, List.length_replicate]
  have hwide : anyWide b = false := anyWide_eq_false hbox
  clear hclear hbox
  suffices h : channelSum (putBatch b samples).m_data.array b.m_channel_count k
      (sizeArr b).prod =
      channelSum b.m_data.array b.m_channel_count k (sizeArr b).prod +
        (samples.map (fun s => if s.2.2 = true then s.2.1.getD k 0 else 0)).sum by
    rw [h, hstart, zero_add]
  clear hstart
  induction samples generalizing b with
  | nil =>
    show channelSum b.m_data.array _ _ _ = channelSum b.m_data.array _ _ _ + ([] : List ℚ).sum
    rw [List.sum_nil, add_zero]
  | cons s rest ih =>
    show channelSum (putBatch (putStep b s) rest).m_data.array _ _ _ = _
    have hch2 : (putStep b s).m_channel_count = b.m_channel_count :=
      put_m_channel_count b s.1 s.2.1 s.2.2
    have hsz2 : sizeArr (putStep b s) = sizeArr b := put_sizeArr b s.1 s.2.1 s.2.2
    have hms2 : (putStep b s).m_size = b.m_size := put_m_size b s.1 s.2.1 s.2.2
    have hlp : ∀ q, localPos (putStep b s) q = localPos b q :=
      fun q => put_localPos b s.1 s.2.1 s.2.2 q
    have hal : (putStep b s).m_data.array.length = b.m_data.array.length :=
      put_array_length b s.1 s.2.1 s.2.2
    have haw : anyWide (putStep b s) = anyWide b := put_anyWide b s.1 s.2.1 s.2.2
    have hstep : channelSum (putStep b s).m_data.array b.m_channel_count k
        (sizeArr b).prod =
        channelSum b.m_data.array b.m_channel_count k (sizeArr b).prod +
          (if s.2.2 = true then s.2.1.getD k 0 else 0) :=
      channelSum_putFast b s.1 s.2.1 s.2.2 k hwide hk hlen hpos hU hchU hprodU
        (fun ha => hinb s (List.mem_cons_self s rest) ha)
    have hih := ih (putStep b s) (by rw [hch2]; exact hk)
      ?hpos2 ?hU2 ?hchU2 ?hprodU2 ?hinb2 ?hlen2 ?hwide2
    case hpos2 =>
      intro j hj
      rw [hsz2]
      refine hpos j ?_
      rw [hms2] at hj
      exact hj
    case hU2 => rw [hsz2, hch2]; exact hU
    case hchU2 => rw [hch2]; exact hchU
    case hprodU2 => rw [hsz2]; exact hprodU
    case hinb2 =>
      intro s2 hs2 ha j hj
      rw [hms2] at hj
      rw [hsz2, hlp]
      exact hinb s2 (List.mem_cons_of_mem s hs2) ha j hj
    case hlen2 =>
      rw [hal, hch2, hsz2]
      exact hlen
    case hwide2 => rw [haw]; exact hwide
    rw [hch2, hsz2] at hih
    rw [hih, hstep]
    rw [List.map_cons, List.sum_cons]
    ring

attribute [local semireducible] Rat.add Rat.mul Rat.inv Rat.sub in
/-- C7 (witness): on `B1`, one active in-bounds sample of value `2` in
channel 0 and one inactive sample: the channel-0 sum over all cells after
the batch equals `2`. -/
theorem C7_conservation_witness :
    channelSum (putBatch B1 [([1], [2, 3, 4, 1, 1], true),
        ([2], [5, 6, 7, 1, 1], false)]).m_data.array B1.m_channel_count 0
        (sizeArr B1).prod =
      (([([1], [2, 3, 4, 1, 1], true), ([2], [5, 6, 7, 1, 1], false)] :
          List (List ℚ × List ℚ × Bool)).map
        (fun s => if s.2.2 = true then s.2.1.getD 0 0 else 0)).sum :=
  C7_conservation B1 0 [([1], [2, 3, 4, 1, 1], true), ([2], [5, 6, 7, 1, 1], false)]
    (by decide) (by decide) (by decide) (by decide) (by decide) (by decide)
    (by decide) (by decide)

/-! ### Claim C6 -/

theorem getD_writeAxisWeights (f : RFilter) (nj : ℕ) (bj : ℚ) (bi : ℕ)
    (w : List ℚ) (j : ℕ) :
    (writeAxisWeights f nj bj bi w).getD j 0 =
      if bi ≤ j ∧ j < bi + nj ∧ j < w.length
      then f.eval ((u32 (fToU32 bj + (j - bi)) : ℕ) : ℚ)
      else w.getD j 0 := by
  unfold writeAxisWeights
  induction nj with
  | zero =>
    rw [if_neg (by omega)]
    rfl
  | succ m ih =>
    rw [List.range_succ, List.foldl_append]
    simp only [List.foldl_cons, List.foldl_nil]
    have hlen : ((List.range m).foldl (fun w i => w.set (bi + i)
        (f.eval ((u32 (fToU32 bj + i) : ℕ) : ℚ))) w).length = w.length :=
      length_writeAxisWeights f m bj bi w
    by_cases hj : j = bi + m
    · subst hj
      by_cases hjl : bi + m < w.length
      · rw [getD_set_eq _ _ _ _ (by rw [hlen]; exact hjl)]
        rw [if_pos ⟨Nat.le_add_right _ _, by omega, hjl⟩,
          show bi + m - bi = m by omega]
      · rw [List.set_eq_of_length_le (by rw [hlen]; omega), ih,
          if_neg (by omega), if_neg (by omega)]
    · rw [getD_set_ne _ _ _ (fun h => hj h.symm), ih]
      by_cases hcond : bi ≤ j ∧ j < bi + m ∧ j < w.length
      · rw [if_pos hcond, if_pos ⟨hcond.1, by omega, hcond.2.2⟩]
      · rw [if_neg hcond, if_neg (by
          intro ⟨h1, h2, h3⟩
          exact hcond ⟨h1, by omega, h3⟩)]

theorem computeWeights_ext : ∀ (fs : List RFilter) (ns : List ℕ) (bs : List ℚ)
    (i : ℕ) (w1 w2 : List ℚ),
    fs.length = ns.length → ns.length = bs.length →
    w1.length = w2.length → w1.length ≤ i + ns.sum →
    (∀ j, j < i → w1.getD j 0 = w2.getD j 0) →
    computeWeights fs ns bs i w1 = computeWeights fs ns bs i w2 := by
  intro fs
  induction fs with
  | nil =>
    intro ns bs i w1 w2 hf hn hw hcov hpre
    have hns : ns = [] := List.length_eq_zero.mp hf.symm
    subst hns
    show w1 = w2
    refine List.ext_getElem? ?_
    intro n
    by_cases hnl : n < w1.length
    · have h1 : w1[n]? = some (w1.getD n 0) := by
        rw [List.getD_eq_getElem?_getD, List.getElem?_eq_getElem hnl]
        rfl
      have h2 : w2[n]? = some (w2.getD n 0) := by
        rw [List.getD_eq_getElem?_getD, List.getElem?_eq_getElem (by omega)]
        rfl
      rw [h1, h2, hpre n (by simp at hcov; omega)]
    · rw [List.getElem?_eq_none (by omega), List.getElem?_eq_none (by omega)]
  | cons f fs ih =>
    intro ns bs i w1 w2 hf hn hw hcov hpre
    match ns, bs, hf, hn with
    | nj :: ns, bj :: bs, hf, hn =>
      show computeWeights fs ns bs (i + nj) (writeAxisWeights f nj bj i w1) =
        computeWeights fs ns bs (i + nj) (writeAxisWeights f nj bj i w2)
      refine ih ns bs (i + nj) _ _ (by simpa using hf) (by simpa using hn)
        (by rw [length_writeAxisWeights, length_writeAxisWeights, hw]) ?_ ?_
      · rw [length_writeAxisWeights]
        rw [List.sum_cons] at hcov
        omega
      · intro j hj
        rw [getD_writeAxisWeights, getD_writeAxisWeights, hw]
        by_cases hc : i ≤ j ∧ j < i + nj ∧ j < w2.length
        · rw [if_pos hc, if_pos hc]
        · rw [if_neg hc, if_neg hc]
          by_cases hji : j < i
          · exact hpre j hji
          · have h1 : i ≤ j := by omega
            have hjl : ¬ j < w2.length := fun hlt => hc ⟨h1, hj, hlt⟩
            rw [List.getD_eq_default _ _ (by omega),
              List.getD_eq_default _ _ (by omega)]

theorem localPos_congr {b1 b2 : Block} (h : SameCfg b1 b2) (q : List ℚ) :
    localPos b1 q = localPos b2 q := by
  obtain ⟨h1, h2, h3, h4, h5, h6, h7, h8, h9, h10⟩ := h
  unfold localPos
  simp only [h1, h6, h8]

theorem sizeArr_congr {b1 b2 : Block} (h : SameCfg b1 b2) :
    sizeArr b1 = sizeArr b2 := by
  obtain ⟨h1, h2, h3, h4, h5, h6, h7, h8, h9, h10⟩ := h
  unfold sizeArr
  simp only [h2, h7]

theorem tapCounts_congr {b1 b2 : Block} (h : SameCfg b1 b2) :
    tapCounts b1 = tapCounts b2 := by
  obtain ⟨h1, h2, h3, h4, h5, h6, h7, h8, h9, h10⟩ := h
  unfold tapCounts
  rw [h9]

theorem loFloat_congr {b1 b2 : Block} (h : SameCfg b1 b2) (pos : List ℚ) (j : ℕ) :
    loFloat b1 pos j = loFloat b2 pos j := by
  obtain ⟨h1, h2, h3, h4, h5, h6, h7, h8, h9, h10⟩ := h
  unfold loFloat
  rw [h9]

theorem hiFloat_congr {b1 b2 : Block} (h : SameCfg b1 b2) (pos : List ℚ) (j : ℕ) :
    hiFloat b1 pos j = hiFloat b2 pos j := by
  have hs : sizeArr b1 = sizeArr b2 := sizeArr_congr h
  obtain ⟨h1, h2, h3, h4, h5, h6, h7, h8, h9, h10⟩ := h
  unfold hiFloat
  rw [h9, h8, hs]

theorem putWeights_congr {b1 b2 : Block} (h : SameCfg b1 b2)
    (hinv : WeightsInv b1) (pos' : List ℚ) :
    putWeights b1 pos' = putWeights b2 pos' := by
  obtain ⟨hi1, hi2⟩ := hinv
  have h' := h
  obtain ⟨h1, h2, h3, h4, h5, h6, h7, h8, h9, h10⟩ := h'
  unfold putWeights
  simp only [localPos_congr h, h5, h9, h4]
  have htc : tapCounts b1 = tapCounts b2 := by
    unfold tapCounts
    rw [h9]
  have hlo : ∀ pos j, loFloat b1 pos j = loFloat b2 pos j := by
    intro pos j
    unfold loFloat
    rw [h9]
  simp only [← h5, ← h9, ← htc, ← localPos_congr h]
  have hcw : computeWeights (b1.m_filter.getD []) (tapCounts b1)
      ((List.range (b1.m_filter.getD []).length).map
        (fun j => ((fToU32 (loFloat b1 (localPos b1 pos') j) : ℕ) : ℚ) -
          (localPos b1 pos').getD j 0)) 0 b1.m_weights =
      computeWeights (b1.m_filter.getD []) (tapCounts b1)
      ((List.range (b1.m_filter.getD []).length).map
        (fun j => ((fToU32 (loFloat b1 (localPos b1 pos') j) : ℕ) : ℚ) -
          (localPos b1 pos').getD j 0)) 0 b2.m_weights := by
    refine computeWeights_ext _ _ _ 0 _ _ ?_ ?_ h10 ?_ ?_
    · rw [hi1]
      unfold tapCounts
      rw [List.length_map]
    · unfold tapCounts
      rw [List.length_map, List.length_map, List.length_range, hi1]
    · rw [Nat.zero_add]
      exact le_of_eq hi2
    · intro j hj
      omega
  rw [hcw]
  simp only [loFloat_congr h]

theorem putOps_congr {b1 b2 : Block} (h : SameCfg b1 b2)
    (hinv : WeightsInv b1) (pos' value : List ℚ) (active : Bool) :
    putOps b1 pos' value active = putOps b2 pos' value active := by
  have h' := h
  obtain ⟨h1, h2, h3, h4, h5, h6, h7, h8, h9, h10⟩ := h'
  have haw : anyWide b1 = anyWide b2 := by
    unfold anyWide
    rw [h9]
  unfold putOps
  rw [haw]
  split
  · unfold putGeneralOps
    rw [putWeights_congr h hinv pos']
    simp only [localPos_congr h, sizeArr_congr h, tapCounts_congr h,
      loFloat_congr h, hiFloat_congr h, h5, h9, h3]
  · unfold putFastOps
    simp only [localPos_congr h, sizeArr_congr h, h2, h3]

theorem put_data_eq (b : Block) (pos' value : List ℚ) (active : Bool) :
    (put_ b pos' value active).m_data =
      ⟨b.m_data.shape, (putOps b pos' value active).foldl scatterAdd
        b.m_data.array⟩ := by
  unfold put_
  split <;> rfl

theorem putStep_SameCfg {b1 b2 : Block} (h : SameCfg b1 b2)
    (s : List ℚ × List ℚ × Bool) :
    SameCfg (putStep b1 s) (putStep b2 s) := by
  have h' := h
  obtain ⟨h1, h2, h3, h4, h5, h6, h7, h8, h9, h10⟩ := h'
  refine ⟨?_, ?_, ?_, ?_, ?_, ?_, ?_, ?_, ?_, ?_⟩
  · rw [show (putStep b1 s).m_offset = b1.m_offset from
      put_m_offset b1 s.1 s.2.1 s.2.2,
      show (putStep b2 s).m_offset = b2.m_offset from
      put_m_offset b2 s.1 s.2.1 s.2.2, h1]
  · rw [show (putStep b1 s).m_size = b1.m_size from put_m_size b1 s.1 s.2.1 s.2.2,
      show (putStep b2 s).m_size = b2.m_size from put_m_size b2 s.1 s.2.1 s.2.2, h2]
  · rw [show (putStep b1 s).m_channel_count = b1.m_channel_count from
      put_m_channel_count b1 s.1 s.2.1 s.2.2,
      show (putStep b2 s).m_channel_count = b2.m_channel_count from
      put_m_channel_count b2 s.1 s.2.1 s.2.2, h3]
  · rw [show (putStep b1 s).m_normalize = b1.m_normalize from
      put_m_normalize b1 s.1 s.2.1 s.2.2,
      show (putStep b2 s).m_normalize = b2.m_normalize from
      put_m_normalize b2 s.1 s.2.1 s.2.2, h4]
  · rw [show (putStep b1 s).m_filter = b1.m_filter from
      put_m_filter b1 s.1 s.2.1 s.2.2,
      show (putStep b2 s).m_filter = b2.m_filter from
      put_m_filter b2 s.1 s.2.1 s.2.2, h5]
  · rw [show (putStep b1 s).m_border_size = b1.m_border_size from
      put_m_border_size b1 s.1 s.2.1 s.2.2,
      show (putStep b2 s).m_border_size = b2.m_border_size from
      put_m_border_size b2 s.1 s.2.1 s.2.2, h6]
  · rw [show (putStep b1 s).m_original_border_size = b1.m_original_border_size from
      put_m_original_border_size b1 s.1 s.2.1 s.2.2,
      show (putStep b2 s).m_original_border_size = b2.m_original_border_size from
      put_m_original_border_size b2 s.1 s.2.1 s.2.2, h7]
  · rw [show (putStep b1 s).m_border_offset = b1.m_border_offset from
      put_m_border_offset b1 s.1 s.2.1 s.2.2,
      show (putStep b2 s).m_border_offset = b2.m_border_offset from
      put_m_border_offset b2 s.1 s.2.1 s.2.2, h8]
  · rw [show (putStep b1 s).filter_radius = b1.filter_radius from
      put_filter_radius b1 s.1 s.2.1 s.2.2,
      show (putStep b2 s).filter_radius = b2.filter_radius from
      put_filter_radius b2 s.1 s.2.1 s.2.2, h9]
  · rw [show (putStep b1 s).m_weights.length = b1.m_weights.length from
      put_weights_length b1 s.1 s.2.1 s.2.2,
      show (putStep b2 s).m_weights.length = b2.m_weights.length from
      put_weights_length b2 s.1 s.2.1 s.2.2, h10]

theorem putStep_WeightsInv {b : Block} (hinv : WeightsInv b)
    (s : List ℚ × List ℚ × Bool) : WeightsInv (putStep b s) := by
  obtain ⟨h1, h2⟩ := hinv
  constructor
  · rw [show (putStep b s).m_filter = b.m_filter from put_m_filter b s.1 s.2.1 s.2.2,
      show (putStep b s).filter_radius = b.filter_radius from
      put_filter_radius b s.1 s.2.1 s.2.2]
    exact h1
  · rw [show (putStep b s).m_weights.length = b.m_weights.length from
      put_weights_length b s.1 s.2.1 s.2.2,
      show tapCounts (putStep b s) = tapCounts b from put_tapCounts b s.1 s.2.1 s.2.2]
    exact h2

theorem putStep_data {b1 b2 : Block} (h : SameCfg b1 b2) (hinv : WeightsInv b1)
    (hdata : b1.m_data = b2.m_data) (s : List ℚ × List ℚ × Bool) :
    (putStep b1 s).m_data = (putStep b2 s).m_data := by
  show (put_ b1 s.1 s.2.1 s.2.2).m_data = (put_ b2 s.1 s.2.1 s.2.2).m_data
  rw [put_data_eq, put_data_eq, putOps_congr h hinv s.1 s.2.1 s.2.2, hdata]

theorem putBatch_data_congr : ∀ (l : List (List ℚ × List ℚ × Bool)) {b1 b2 : Block},
    SameCfg b1 b2 → WeightsInv b1 → b1.m_data = b2.m_data →
    (putBatch b1 l).m_data = (putBatch b2 l).m_data := by
  intro l
  induction l with
  | nil => intro b1 b2 _ _ hd; exact hd
  | cons s rest ih =>
    intro b1 b2 h hinv hd
    exact ih (putStep_SameCfg h s) (putStep_WeightsInv hinv s)
      (putStep_data h hinv hd s)

theorem putStep_SameCfg_self {b : Block} (s : List ℚ × List ℚ × Bool) :
    SameCfg (putStep b s) b :=
  ⟨put_m_offset _ _ _ _, put_m_size _ _ _ _, put_m_channel_count _ _ _ _,
    put_m_normalize _ _ _ _, put_m_filter _ _ _ _, put_m_border_size _ _ _ _,
    put_m_original_border_size _ _ _ _, put_m_border_offset _ _ _ _,
    put_filter_radius _ _ _ _, put_weights_length _ _ _ _⟩

theorem SameCfg_trans {b1 b2 b3 : Block} (h : SameCfg b1 b2) (h2 : SameCfg b2 b3) :
    SameCfg b1 b3 := by
  obtain ⟨a1, a2, a3, a4, a5, a6, a7, a8, a9, a10⟩ := h
  obtain ⟨c1, c2, c3, c4, c5, c6, c7, c8, c9, c10⟩ := h2
  exact ⟨a1.trans c1, a2.trans c2, a3.trans c3, a4.trans c4, a5.trans c5,
    a6.trans c6, a7.trans c7, a8.trans c8, a9.trans c9, a10.trans c10⟩

theorem SameCfg_symm {b1 b2 : Block} (h : SameCfg b1 b2) : SameCfg b2 b1 := by
  obtain ⟨a1, a2, a3, a4, a5, a6, a7, a8, a9, a10⟩ := h
  exact ⟨a1.symm, a2.symm, a3.symm, a4.symm, a5.symm, a6.symm, a7.symm, a8.symm,
    a9.symm, a10.symm⟩

theorem WeightsInv_congr {b1 b2 : Block} (h : SameCfg b1 b2)
    (hinv : WeightsInv b1) : WeightsInv b2 := by
  obtain ⟨a1, a2, a3, a4, a5, a6, a7, a8, a9, a10⟩ := h
  obtain ⟨i1, i2⟩ := hinv
  constructor
  · rw [← a5, ← a9]
    exact i1
  · rw [← a10, i2]
    unfold tapCounts
    rw [a9]

theorem putStep_swap (b : Block) (hinv : WeightsInv b)
    (x y : List ℚ × List ℚ × Bool) :
    (putStep (putStep b y) x).m_data = (putStep (putStep b x) y).m_data := by
  have hsy : SameCfg (putStep b y) b := putStep_SameCfg_self y
  have hsx : SameCfg (putStep b x) b := putStep_SameCfg_self x
  have hinvy : WeightsInv (putStep b y) := putStep_WeightsInv hinv y
  have hinvx : WeightsInv (putStep b x) := putStep_WeightsInv hinv x
  show (put_ (putStep b y) x.1 x.2.1 x.2.2).m_data =
    (put_ (putStep b x) y.1 y.2.1 y.2.2).m_data
  rw [put_data_eq, put_data_eq]
  rw [putOps_congr hsy hinvy x.1 x.2.1 x.2.2, putOps_congr hsx hinvx y.1 y.2.1 y.2.2]
  have hdy : (putStep b y).m_data = ⟨b.m_data.shape,
      (putOps b y.1 y.2.1 y.2.2).foldl scatterAdd b.m_data.array⟩ :=
    put_data_eq b y.1 y.2.1 y.2.2
  have hdx : (putStep b x).m_data = ⟨b.m_data.shape,
      (putOps b x.1 x.2.1 x.2.2).foldl scatterAdd b.m_data.array⟩ :=
    put_data_eq b x.1 x.2.1 x.2.2
  rw [hdy, hdx]
  simp only
  rw [foldl_scatterAdd_comm]

theorem putBatch_perm {l1 l2 : List (List ℚ × List ℚ × Bool)}
    (hperm : l1.Perm l2) :
    ∀ b : Block, WeightsInv b → (putBatch b l1).m_data = (putBatch b l2).m_data := by
  induction hperm with
  | nil => intro b _; rfl
  | cons x p ih =>
    intro b hinv
    exact ih (putStep b x) (putStep_WeightsInv hinv x)
  | swap x y l =>
    intro b hinv
    show (putBatch (putStep (putStep b y) x) l).m_data =
      (putBatch (putStep (putStep b x) y) l).m_data
    refine putBatch_data_congr l ?_ ?_ (putStep_swap b hinv x y)
    · refine SameCfg_trans (putStep_SameCfg_self x) ?_
      refine SameCfg_trans (putStep_SameCfg_self y) ?_
      refine SameCfg_symm ?_
      refine SameCfg_trans (putStep_SameCfg_self y) (putStep_SameCfg_self x)
    · exact putStep_WeightsInv (putStep_WeightsInv hinv y) x
  | trans p1 p2 ih1 ih2 =>
    intro b hinv
    exact (ih1 b hinv).trans (ih2 b hinv)

/-- C6: for a fixed configuration (the scratch-table invariant
established by `configure_filter`), the final data buffer after
processing a multiset of samples is independent of the order of the
samples and of how they are split into successive batches: processing
any list of batches whose concatenation is a permutation of a flat
sample list yields the same final buffer (exactly, in this rational
model). -/
theorem C6_order_independence (b : Block) (hinv : WeightsInv b)
    (batches : List (List (List ℚ × List ℚ × Bool)))
    (l : List (List ℚ × List ℚ × Bool))
    (hperm : batches.flatten.Perm l) :
    (putBatches b batches).m_data = (putBatch b l).m_data := by
  have hflat : putBatches b batches = putBatch b batches.flatten := by
    unfold putBatches putBatch
    rw [List.foldl_flatten]
  rw [hflat]
  exact putBatch_perm hperm b hinv

attribute [local semireducible] Rat.add Rat.mul Rat.inv Rat.sub in
/-- C6 (witness): two samples on `B3` (general path), processed as two
singleton batches in one order and as one flat batch in the swapped
order, produce the same buffer. -/
theorem C6_order_independence_witness :
    (putBatches B3 [[([1], [2, 3, 4, 1, 1], true)], [([47/10], [5, 6, 7, 1, 1], true)]]).m_data =
      (putBatch B3 [([47/10], [5, 6, 7, 1, 1], true), ([1], [2, 3, 4, 1, 1], true)]).m_data :=
  C6_order_independence B3 (by constructor <;> decide)
    [[([1], [2, 3, 4, 1, 1], true)], [([47/10], [5, 6, 7, 1, 1], true)]]
    [([47/10], [5, 6, 7, 1, 1], true), ([1], [2, 3, 4, 1, 1], true)]
    (List.Perm.swap ([47/10], [5, 6, 7, 1, 1], true) ([1], [2, 3, 4, 1, 1], true) [])

/-! ### Claim C3 -/

theorem tapIndices_mem_lt {n t : List ℕ} (h : t ∈ tapIndices n) :
    ∀ j, j < n.length → t.getD j 0 < max (n.getD j 0) 1 := by
  induction n generalizing t with
  | nil =>
    intro j hj
    simp at hj
  | cons n0 rest ih =>
    simp only [tapIndices, List.mem_flatMap, List.mem_map] at h
    obtain ⟨t2, ht2, i, hi, rfl⟩ := h
    intro j hj
    match j with
    | 0 => simpa using List.mem_range.mp hi
    | j + 1 => exact ih ht2 j (by simpa using hj)

theorem getD_zipWith_add {t l : List ℕ} {j : ℕ} (hjt : j < t.length)
    (hjl : j < l.length) :
    (List.zipWith (· + ·) t l).getD j 0 = t.getD j 0 + l.getD j 0 := by
  have hjz : j < (List.zipWith (· + ·) t l).length := by
    rw [List.length_zipWith]
    omega
  rw [List.getD_eq_getElem _ _ hjz, List.getD_eq_getElem _ _ hjt,
    List.getD_eq_getElem _ _ hjl, List.getElem_zipWith]

attribute [local semireducible] Rat.add Rat.mul Rat.inv Rat.sub in
/-- C3 (counterexample): on the reconfigured block `B3` (`m_border_offset
= [1]`, padded extent 8, general path) at raw position `4.7`, the local
coordinate is `6.2` and the filter radius `1.5`.  The claim's upper bound
`min (floor (coord + radius)) (extent - 1)` evaluates to `7` and its lower
bound to `5`, yet no enabled scatter-add of the call targets cell `7`:
the code clamps the upper bound to
`extent - (1 + border_offset) = 6` (line 116), not to `extent - 1`. -/
theorem C3_counterexample :
    anyWide B3 = true ∧
    fToU32 (loFloat B3 (localPos B3 [47/10]) 0) = 5 ∧
    min (floorQ ((localPos B3 [47/10]).getD 0 0 + B3.filter_radius.getD 0 0))
      (((sizeArr B3).getD 0 0 : ℚ) - 1) = 7 ∧
    ((putGeneralOps B3 [47/10] [5, 6, 7, 1, 1] true).all
      (fun op => !op.enabled ||
        decide (op.index / B3.m_channel_count ≠ 7))) = true := by
  decide

/-- C3 (amended): in the general path the per-axis bounds are
`lo[j] = max (ceil (coord[j] - radius[j])) 0` (`loFloat`) and
`hi[j] = min (floor (coord[j] + radius[j])) (extent[j] - (1 + border_offset[j]))`
(`hiFloat`) — the upper clamp subtracts the border offset, it is not
`extent[j] - 1`.  On a configured block (consistent lengths, positive
padded extents that fit in `UInt32`, `channel_count * ∏ extent` within
`UInt32`, and per-axis lower bounds far from the `UInt32` wrap), every
enabled scatter-add of the general path targets the flat index
`flatten extent d * channel_count + k` of a channel `k` and a lattice
point `d` with `lo[j] ≤ d[j] ≤ hi[j]` on every axis. -/
theorem C3_amended (b : Block) (pos' value : List ℚ) (active : Bool)
    (hflen : (b.m_filter.getD []).length = b.m_size.length)
    (hrad : b.filter_radius.length = b.m_size.length)
    (_horig : b.m_original_border_size.length = b.m_size.length)
    (hdims : ∀ j, j < b.m_size.length →
      0 < b.m_size.getD j 0 + 2 * b.m_original_border_size.getD j 0)
    (hsU : ∀ j, j < b.m_size.length →
      b.m_size.getD j 0 + 2 * b.m_original_border_size.getD j 0 < U32SIZE)
    (hch0 : 0 < b.m_channel_count)
    (hchprod : b.m_channel_count * (sizeArr b).prod < U32SIZE)
    (hno_wrap : ∀ j, j < b.m_size.length →
      fToU32 (loFloat b (localPos b pos') j) +
        max ((tapCounts b).getD j 0) 1 ≤ U32SIZE) :
    ∀ op ∈ putGeneralOps b pos' value active, op.enabled = true →
      ∃ d k, op.index = flatten (sizeArr b) d * b.m_channel_count + k ∧
        k < b.m_channel_count ∧ d.length = b.m_size.length ∧
        ∀ j, j < b.m_size.length →
          fToU32 (loFloat b (localPos b pos') j) ≤ d.getD j 0 ∧
          d.getD j 0 ≤ fToU32 (hiFloat b (localPos b pos') j) := by
  intro op hop hen
  have hszlen : (sizeArr b).length = b.m_size.length := by
    unfold sizeArr
    rw [List.length_map, List.length_range]
  have hszpos : ∀ j, j < (sizeArr b).length → 0 < (sizeArr b).getD j 0 := by
    intro j hj
    rw [hszlen] at hj
    rw [sizeArr_getD b j hj, u32_eq_of_lt (hsU j hj)]
    exact hdims j hj
  have hprodpos : 0 < (sizeArr b).prod := by
    refine List.prod_pos ?_
    intro x hx
    obtain ⟨j, hj, rfl⟩ := List.getElem_of_mem hx
    have := hszpos j hj
    simpa [List.getD_eq_getElem?_getD, List.getElem?_eq_getElem hj] using this
  have hprodU : (sizeArr b).prod < U32SIZE := by
    have h1 : (sizeArr b).prod ≤ b.m_channel_count * (sizeArr b).prod :=
      Nat.le_mul_of_pos_left _ hch0
    omega
  have hchU : b.m_channel_count < U32SIZE := by
    have h1 : b.m_channel_count ≤ b.m_channel_count * (sizeArr b).prod :=
      Nat.le_mul_of_pos_right _ hprodpos
    omega
  unfold putGeneralOps at hop
  simp only [List.mem_flatMap, List.mem_map] at hop
  obtain ⟨t, ht, k, hk, rfl⟩ := hop
  rw [List.mem_range] at hk
  simp only at hen
  rw [Bool.and_eq_true, List.all_eq_true] at hen
  have htlen : t.length = b.m_size.length := by
    rw [tapIndices_mem_length ht]
    unfold tapCounts
    rw [List.length_map, hrad]
  have htlt : ∀ j, j < b.m_size.length →
      t.getD j 0 < max ((tapCounts b).getD j 0) 1 := by
    intro j hj
    refine tapIndices_mem_lt ht j ?_
    unfold tapCounts
    rw [List.length_map, hrad]
    exact hj
  have hgate : ∀ j, j < b.m_size.length →
      u32 (t.getD j 0 + fToU32 (loFloat b (localPos b pos') j)) ≤
        fToU32 (hiFloat b (localPos b pos') j) := by
    intro j hj
    have hj2 : j < (b.m_filter.getD []).length := by rw [hflen]; exact hj
    have h5 := hen.2 _ (List.mem_range.mpr hj2)
    rw [decide_eq_true_iff] at h5
    rwa [getD_map_range _ _ _ _ hj2, getD_map_range _ _ _ _ hj2] at h5
  have hnw : ∀ j, j < b.m_size.length →
      t.getD j 0 + fToU32 (loFloat b (localPos b pos') j) < U32SIZE := by
    intro j hj
    have h1 := htlt j hj
    have h2 := hno_wrap j hj
    omega
  have hsum : ∀ j, j < b.m_size.length →
      t.getD j 0 + fToU32 (loFloat b (localPos b pos') j) <
        (sizeArr b).getD j 0 := by
    intro j hj
    have hg := hgate j hj
    rw [u32_eq_of_lt (hnw j hj)] at hg
    have hhi : fToU32 (hiFloat b (localPos b pos') j) ≤ (sizeArr b).getD j 0 - 1 :=
      fToU32_le_sizeSub1 (hszpos j (by rw [hszlen]; exact hj))
    have hpos2 := hszpos j (by rw [hszlen]; exact hj)
    omega
  set lol := (List.range (b.m_filter.getD []).length).map
    (fun j => fToU32 (loFloat b (localPos b pos') j)) with hlol
  have hlollen : lol.length = b.m_size.length := by
    rw [hlol, List.length_map, List.length_range, hflen]
  have hlolgetD : ∀ j, j < b.m_size.length →
      lol.getD j 0 = fToU32 (loFloat b (localPos b pos') j) := by
    intro j hj
    rw [hlol]
    exact getD_map_range _ _ _ _ (by rw [hflen]; exact hj)
  refine ⟨List.zipWith (· + ·) t lol, k, ?_, hk, ?_, ?_⟩
  · have hoff : tapOffset (sizeArr b) lol t =
        flatten (sizeArr b) (List.zipWith (· + ·) t lol) := by
      refine tapOffset_eq (sizeArr b) lol t (by rw [hlollen, hszlen])
        (by rw [htlen, hszlen]) ?_ hprodU
      intro j hj
      rw [hszlen] at hj
      rw [hlolgetD j hj]
      exact hsum j hj
    have hflt : flatten (sizeArr b) (List.zipWith (· + ·) t lol) <
        (sizeArr b).prod := by
      refine flatten_lt (forall₂_lt_of_getD ?_ ?_)
      · rw [List.length_zipWith, htlen, hlollen, hszlen]
        exact Nat.min_self _
      · intro j hj
        rw [hszlen] at hj
        rw [getD_zipWith_add (by rw [htlen]; exact hj) (by rw [hlollen]; exact hj),
          hlolgetD j hj]
        exact hsum j hj
    have h1 : flatten (sizeArr b) (List.zipWith (· + ·) t lol) ≤
        (sizeArr b).prod - 1 := Nat.le_sub_one_of_lt hflt
    have hidx : flatten (sizeArr b) (List.zipWith (· + ·) t lol) *
        b.m_channel_count + k < U32SIZE := by
      have h2 : flatten (sizeArr b) (List.zipWith (· + ·) t lol) *
          b.m_channel_count + k < (sizeArr b).prod * b.m_channel_count := by
        calc flatten (sizeArr b) (List.zipWith (· + ·) t lol) *
              b.m_channel_count + k
            ≤ ((sizeArr b).prod - 1) * b.m_channel_count + k :=
              Nat.add_le_add_right (Nat.mul_le_mul_right _ h1) k
          _ < ((sizeArr b).prod - 1) * b.m_channel_count + b.m_channel_count := by
              omega
          _ = (sizeArr b).prod * b.m_channel_count := by
              conv_rhs => rw [← Nat.sub_add_cancel hprodpos]
              ring
      have h3 : (sizeArr b).prod * b.m_channel_count =
          b.m_channel_count * (sizeArr b).prod := Nat.mul_comm _ _
      omega
    show u32 (u32 (tapOffset (sizeArr b) lol t * u32 b.m_channel_count) + u32 k) = _
    rw [hoff, u32_eq_of_lt hchU, u32_eq_of_lt (show k < U32SIZE by omega),
      u32_eq_of_lt (show flatten (sizeArr b) (List.zipWith (· + ·) t lol) *
        b.m_channel_count < U32SIZE by omega),
      u32_eq_of_lt hidx]
  · rw [List.length_zipWith, htlen, hlollen]
    exact Nat.min_self _
  · intro j hj
    rw [getD_zipWith_add (by rw [htlen]; exact hj) (by rw [hlollen]; exact hj),
      hlolgetD j hj]
    constructor
    · exact Nat.le_add_left _ _
    · have hg := hgate j hj
      rw [u32_eq_of_lt (hnw j hj)] at hg
      exact hg

attribute [local semireducible] Rat.add Rat.mul Rat.inv Rat.sub in
/-- C3 (witness): the first scatter-add of the `B3` call of the
counterexample is enabled and decodes, per `C3_amended`, to a lattice
point between the corrected bounds. -/
theorem C3_amended_witness :
    ∃ d k,
      ((putGeneralOps B3 [47/10] [5, 6, 7, 1, 1] true).getD 0
          ⟨0, 0, false⟩).index =
        flatten (sizeArr B3) d * B3.m_channel_count + k ∧
      k < B3.m_channel_count ∧ d.length = B3.m_size.length ∧
      ∀ j, j < B3.m_size.length →
        fToU32 (loFloat B3 (localPos B3 [47/10]) j) ≤ d.getD j 0 ∧
        d.getD j 0 ≤ fToU32 (hiFloat B3 (localPos B3 [47/10]) j) :=
  C3_amended B3 [47/10] [5, 6, 7, 1, 1] true (by decide) (by decide) (by decide)
    (by decide) (by decide) (by decide) (by decide) (by decide)
    ((putGeneralOps B3 [47/10] [5, 6, 7, 1, 1] true).getD 0 ⟨0, 0, false⟩)
    (by decide) (by decide)

end MiTransient
